import Mathlib

/-!
Shallow embedding of the bwt wallet-index core (src/store.rs and
src/addrman.rs) and proofs about its specification claims.

Modelling conventions:
* `Txid`, `ScriptHash`, `Address`, `KeyOrigin`, hashes and other opaque
  identifiers are modelled as `Nat` (only equality and, for txids, a total
  order are ever used by this code).
* Rust `HashMap` is modelled as an association list `List (α × β)` with
  first-match lookup; `BTreeSet` is modelled as a list kept sorted by the
  comparator, with search-tree insert/remove that deduplicate by
  comparator-equality exactly like `BTreeSet` does.
* Rust panics (`assert!`, `unwrap`, `expect`) are modelled by returning
  `none`: an operation returns `some` exactly when the original code runs
  without panicking.
* `u32` arithmetic (release-mode wrapping) is made explicit with `% 2 ^ 32`.
-/

/-- Transaction status, translated from `TxStatus` in src/addrman.rs
(lines 379-384).  The type `crate::types::TxStatus` used by src/store.rs is
not part of the two sources; per the spec (section 3, "TxStatus - closed set
Conflicted / Unconfirmed / Confirmed(height)") it is the same closed set with
the same order, so this single type serves both files. -/
inductive TxStatus where
  | conflicted : TxStatus
  | unconfirmed : TxStatus
  | confirmed : Nat → TxStatus
deriving DecidableEq, Repr

/-- `impl Ord for TxStatus` from src/addrman.rs lines 386-404. -/
def TxStatus.cmp : TxStatus → TxStatus → Ordering
  | .confirmed height, .confirmed other_height => compare height other_height
  | .confirmed _, .unconfirmed => .gt
  | .confirmed _, .conflicted => .gt
  | .unconfirmed, .confirmed _ => .lt
  | .unconfirmed, .unconfirmed => .eq
  | .unconfirmed, .conflicted => .gt
  | .conflicted, .confirmed _ => .lt
  | .conflicted, .unconfirmed => .lt
  | .conflicted, .conflicted => .eq

/-- `TxStatus::is_viable` from src/addrman.rs lines 448-453. -/
def TxStatus.is_viable : TxStatus → Bool
  | .confirmed _ => true
  | .unconfirmed => true
  | .conflicted => false

/-- `TxStatus::is_confirmed` from src/addrman.rs lines 455-460. -/
def TxStatus.is_confirmed : TxStatus → Bool
  | .confirmed _ => true
  | .unconfirmed => false
  | .conflicted => false

/-- `TxStatus::is_unconfirmed` from src/addrman.rs lines 462-467. -/
def TxStatus.is_unconfirmed : TxStatus → Bool
  | .unconfirmed => true
  | .confirmed _ => false
  | .conflicted => false

/-- Wrapping `u32` subtraction (release-mode Rust semantics). -/
def u32sub (a b : Nat) : Nat := (a % 2 ^ 32 + (2 ^ 32 - b % 2 ^ 32)) % 2 ^ 32

/-- Wrapping `u32` addition (release-mode Rust semantics). -/
def u32add (a b : Nat) : Nat := (a + b) % 2 ^ 32

/-- `TxStatus::new` from src/addrman.rs lines 425-434: classify a node
confirmation count against the tip height.  `confirmations : Int` stands for
the `i32` argument; the `confirmations as u32` cast of a positive `i32` is
`Int.toNat`, and `tip_height - confirmations as u32 + 1` is wrapping `u32`
arithmetic. -/
def TxStatus.new (confirmations : Int) (tip_height : Nat) : TxStatus :=
  if 0 < confirmations then
    .confirmed (u32add (u32sub tip_height confirmations.toNat) 1)
  else if confirmations = 0 then
    .unconfirmed
  else
    .conflicted

/-- History entry `(txid, status)`, shared shape of `HistoryEntry` in
src/store.rs lines 31-36 and src/addrman.rs lines 37-41. -/
structure HistoryEntry where
  txid : Nat
  status : TxStatus
deriving DecidableEq, Repr

/-- `HistoryEntry::new` from src/store.rs lines 38-42. -/
def HistoryEntry.new (txid : Nat) (status : TxStatus) : HistoryEntry :=
  { txid := txid, status := status }

/-- `impl Ord for HistoryEntry` from src/store.rs lines 465-471:
status first, then txid as a tie-break. -/
def HistoryEntry.cmp (a other : HistoryEntry) : Ordering :=
  (TxStatus.cmp a.status other.status).then (compare a.txid other.txid)

/-- `impl Ord for HistoryEntry` from src/addrman.rs lines 412-416:
status only, with no txid tie-break. -/
def HistoryEntry.addrman_cmp (a other : HistoryEntry) : Ordering :=
  TxStatus.cmp a.status other.status

/-- The status order as worded by the spec (section 3): Conflicted sorts
below Unconfirmed, Unconfirmed below every Confirmed height, and Confirmed
entries sort by ascending height. -/
def specStatusLt : TxStatus → TxStatus → Prop
  | .conflicted, .unconfirmed => True
  | .conflicted, .confirmed _ => True
  | .unconfirmed, .confirmed _ => True
  | .confirmed h, .confirmed h2 => h < h2
  | _, _ => False

instance : DecidableRel specStatusLt := fun a b => by
  cases a <;> cases b <;> simp [specStatusLt] <;> infer_instance

/-- The history-entry order as worded by the spec: lexicographic on
(status, txid). -/
def specHistLt (a b : HistoryEntry) : Prop :=
  specStatusLt a.status b.status ∨ (a.status = b.status ∧ a.txid < b.txid)

/-! ### Association-list model of Rust `HashMap` -/

/-- First-match lookup, modelling `HashMap::get`. -/
def mapLookup {α β : Type} [DecidableEq α] : List (α × β) → α → Option β
  | [], _ => none
  | kv :: rest, k => if kv.1 = k then some kv.2 else mapLookup rest k

/-- Insertion of a (fresh) key, modelling `HashMap::insert` at a key that is
absent (the store only ever inserts fresh keys, guarded by asserts). -/
def mapInsert {α β : Type} (m : List (α × β)) (k : α) (v : β) : List (α × β) :=
  m ++ [(k, v)]

/-- Removal of a key, modelling `HashMap::remove`. -/
def mapErase {α β : Type} [DecidableEq α] : List (α × β) → α → List (α × β)
  | [], _ => []
  | kv :: rest, k =>
    if kv.1 = k then mapErase rest k else kv :: mapErase rest k

/-- In-place modification of the value at a key, modelling the mutation done
through `HashMap::get_mut` / `Entry::and_modify`. -/
def mapModify {α β : Type} [DecidableEq α] : List (α × β) → α → (β → β) → List (α × β)
  | [], _, _ => []
  | kv :: rest, k, f =>
    if kv.1 = k then (kv.1, f kv.2) :: mapModify rest k f
    else kv :: mapModify rest k f

/-- The keys of a map are pairwise distinct. -/
def keysNodup {α β : Type} (m : List (α × β)) : Prop := (m.map Prod.fst).Nodup

/-! ### Sorted-list model of Rust `BTreeSet` -/

/-- `BTreeSet::insert`: search by the comparator; if a comparator-equal
element is present the set is unchanged and `false` is returned, otherwise
the element is inserted at its sorted position and `true` is returned. -/
def btreeInsertB {α : Type} (cmp : α → α → Ordering) (x : α) : List α → Bool × List α
  | [] => (true, [x])
  | y :: ys =>
    match cmp x y with
    | .lt => (true, x :: y :: ys)
    | .eq => (false, y :: ys)
    | .gt =>
      let r := btreeInsertB cmp x ys
      (r.1, y :: r.2)

/-- `BTreeSet::remove`: search by the comparator; remove the
comparator-equal element when present, returning whether one was removed. -/
def btreeRemoveB {α : Type} (cmp : α → α → Ordering) (x : α) : List α → Bool × List α
  | [] => (false, [])
  | y :: ys =>
    match cmp x y with
    | .lt => (false, y :: ys)
    | .eq => (true, ys)
    | .gt =>
      let r := btreeRemoveB cmp x ys
      (r.1, y :: r.2)

/-- Sortedness for the store's history sets (strictly increasing in the
`HistoryEntry.cmp` order). -/
def HSorted (l : List HistoryEntry) : Prop :=
  List.Pairwise (fun a b => HistoryEntry.cmp a b = Ordering.lt) l

/-- `OptSat o P` holds when the option holds a value satisfying `P`. -/
def OptSat {α : Type} (o : Option α) (P : α → Prop) : Prop :=
  ∃ a, o = some a ∧ P a

instance {α : Type} (o : Option α) (P : α → Prop) [DecidablePred P] :
    Decidable (OptSat o P) :=
  match o with
  | none => isFalse (by rintro ⟨a, h, -⟩; cases h)
  | some a =>
    if hp : P a then isTrue ⟨a, rfl, hp⟩
    else isFalse (by rintro ⟨b, hb, hpb⟩; cases hb; exact hp hpb)

/-! ### The store data model (src/store.rs lines 15-70) -/

/-- `FundingInfo(scripthash, value)` from src/store.rs line 67. -/
structure FundingInfo where
  scripthash : Nat
  value : Nat
deriving DecidableEq, Repr

/-- An outpoint `(txid, vout)`. -/
structure OutPoint where
  txid : Nat
  vout : Nat
deriving DecidableEq, Repr

/-- An inpoint `(txid, vin)` (`crate::types::InPoint`, only its `txid` field
is read by src/store.rs). -/
structure InPoint where
  txid : Nat
  vin : Nat
deriving DecidableEq, Repr

/-- `SpendingInfo(scripthash, prevout, value)` from src/store.rs line 70. -/
structure SpendingInfo where
  scripthash : Nat
  prevout : OutPoint
  value : Nat
deriving DecidableEq, Repr

/-- `TxEntry` from src/store.rs lines 43-49. -/
structure TxEntry where
  status : TxStatus
  funding : List (Nat × FundingInfo)
  spending : List (Nat × SpendingInfo)
deriving DecidableEq, Repr

/-- `TxEntry::new` from src/store.rs lines 52-58. -/
def TxEntry.new (status : TxStatus) : TxEntry :=
  { status := status, funding := [], spending := [] }

/-- `TxEntry::scripthashes` from src/store.rs lines 59-63: the scripthashes
referenced by the funding and spending maps, collected into a `HashSet`
(hence deduplicated). -/
def TxEntry.scripthashes (e : TxEntry) : List Nat :=
  (e.funding.map (fun p => p.2.scripthash) ++
    e.spending.map (fun p => p.2.scripthash)).dedup

/-- `ScriptEntry` from src/store.rs lines 24-29; the history set is the
sorted-list model of `BTreeSet<HistoryEntry>` under `HistoryEntry.cmp`. -/
structure ScriptEntry where
  address : Nat
  origin : Nat
  history : List HistoryEntry
deriving DecidableEq, Repr

/-- `MemoryStore` from src/store.rs lines 15-22.  The mempool values are
`Option Nat`, standing for `Option<MempoolEntry>` with the opaque
`MempoolEntry` modelled as `Nat`; `txo_spends` is the `track-spends`
capability map. -/
structure MemoryStore where
  scripthashes : List (Nat × ScriptEntry)
  transactions : List (Nat × TxEntry)
  mempool : List (Nat × Option Nat)
  txo_spends : List (OutPoint × InPoint)
deriving DecidableEq, Repr

/-- The store constructed by `MemoryStore::new` (src/store.rs lines 73-75). -/
def MemoryStore.empty : MemoryStore :=
  { scripthashes := [], transactions := [], mempool := [], txo_spends := [] }

/-- `MemoryStore::index_scripthash` from src/store.rs lines 77-118.  A first
call for a fingerprint creates the `ScriptEntry` (with an empty history set)
and returns `true`; a repeated call asserts the stored origin equals the
supplied one (`none` models that assert failing) and returns `false`. -/
def MemoryStore.index_scripthash (s : MemoryStore) (scripthash origin address : Nat) :
    Option (Bool × MemoryStore) :=
  match mapLookup s.scripthashes scripthash with
  | some curr_entry =>
    if curr_entry.origin = origin then some (false, s) else none
  | none =>
    let entry : ScriptEntry := { address := address, origin := origin, history := [] }
    some (true, { s with scripthashes := mapInsert s.scripthashes scripthash entry })

/-- `MemoryStore::index_history_entry` from src/store.rs lines 212-232:
insert a history entry into the (expected to exist) script entry's history
set, returning whether it was newly added. -/
def MemoryStore.index_history_entry (s : MemoryStore) (scripthash : Nat)
    (txhist : HistoryEntry) : Option (Bool × MemoryStore) :=
  match mapLookup s.scripthashes scripthash with
  | none => none
  | some entry =>
    let r := btreeInsertB HistoryEntry.cmp txhist entry.history
    let m := mapModify s.scripthashes scripthash (fun e => { e with history := r.2 })
    some (r.1, { s with scripthashes := m })

/-- The per-scripthash body of the `update_tx_status` loop (src/store.rs
lines 271-278): look up the (expected) script entry, remove the old-status
history entry and insert the new-status one, asserting both succeed. -/
def updateHistStep (old_txhist new_txhist : HistoryEntry)
    (m : List (Nat × ScriptEntry)) (scripthash : Nat) :
    Option (List (Nat × ScriptEntry)) := do
  let scriptentry ← mapLookup m scripthash
  let rem := btreeRemoveB HistoryEntry.cmp old_txhist scriptentry.history
  if rem.1 then
    let ins := btreeInsertB HistoryEntry.cmp new_txhist rem.2
    if ins.1 then
      some (mapModify m scripthash (fun e => { e with history := ins.2 }))
    else none
  else none

/-- `MemoryStore::update_tx_status` from src/store.rs lines 255-285:
for every scripthash referenced by the transaction, replace the old-status
history entry by the new-status one (asserting both edits succeed), then
apply the mempool membership transition. -/
def MemoryStore.update_tx_status (s : MemoryStore) (txid : Nat)
    (old_status new_status : TxStatus) : Option MemoryStore := do
  let tx_entry ← mapLookup s.transactions txid
  let old_txhist := HistoryEntry.new txid old_status
  let new_txhist := HistoryEntry.new txid new_status
  let scripthashes1 ← tx_entry.scripthashes.foldlM
    (updateHistStep old_txhist new_txhist) s.scripthashes
  let s1 := { s with scripthashes := scripthashes1 }
  match old_status, new_status with
  | .unconfirmed, _ =>
    if (mapLookup s1.mempool txid).isSome then
      some { s1 with mempool := mapErase s1.mempool txid }
    else none
  | _, .unconfirmed =>
    if (mapLookup s1.mempool txid).isSome then none
    else some { s1 with mempool := mapInsert s1.mempool txid none }
  | _, _ => some s1

/-- `MemoryStore::upsert_tx` from src/store.rs lines 120-156: insert a new
`TxEntry` or update the status of an existing one, returning whether
anything changed; a status change triggers `update_tx_status`, and a newly
indexed unconfirmed transaction enters the mempool map (asserting it was
absent). -/
def MemoryStore.upsert_tx (s : MemoryStore) (txid : Nat) (status : TxStatus) :
    Option (Bool × MemoryStore) :=
  match mapLookup s.transactions txid with
  | some curr_entry =>
    if curr_entry.status = status then some (false, s)
    else
      let m := mapModify s.transactions txid (fun e => { e with status := status })
      let s1 := { s with transactions := m }
      match s1.update_tx_status txid curr_entry.status status with
      | some s2 => some (true, s2)
      | none => none
  | none =>
    let s1 := { s with transactions := mapInsert s.transactions txid (TxEntry.new status) }
    match status with
    | .unconfirmed =>
      if (mapLookup s1.mempool txid).isSome then none
      else some (true, { s1 with mempool := mapInsert s1.mempool txid none })
    | _ => some (true, s1)

/-- `MemoryStore::index_tx_output_funding` from src/store.rs lines 159-185:
register one owned output of an (already indexed) transaction; a new
`(txid, vout)` pair also inserts a history entry for the funded scripthash
and returns `true`, an already-registered pair changes nothing and returns
`false`. -/
def MemoryStore.index_tx_output_funding (s : MemoryStore) (txid : Nat) (vout : Nat)
    (funding_info : FundingInfo) : Option (Bool × MemoryStore) := do
  let tx_entry ← mapLookup s.transactions txid
  match mapLookup tx_entry.funding vout with
  | some _ => some (false, s)
  | none =>
    let m := mapModify s.transactions txid
      (fun e => { e with funding := mapInsert e.funding vout funding_info })
    let s1 := { s with transactions := m }
    let r ← s1.index_history_entry funding_info.scripthash
      (HistoryEntry.new txid tx_entry.status)
    some (true, r.2)

/-- The per-scripthash body of the `index_tx_inputs_spending` loop
(src/store.rs lines 206-209): insert the history entry for one scripthash. -/
def indexHistStep (tx_hist : HistoryEntry) (st : MemoryStore) (scripthash : Nat) :
    Option MemoryStore := do
  let r ← st.index_history_entry scripthash tx_hist
  some r.2

/-- `MemoryStore::index_tx_inputs_spending` from src/store.rs lines 188-210:
install the full spending map of an (already indexed) transaction, asserting
that either overwrite is allowed or no spending data existed, then insert a
history entry for every scripthash the updated entry references. -/
def MemoryStore.index_tx_inputs_spending (s : MemoryStore) (txid : Nat)
    (spending : List (Nat × SpendingInfo)) (allow_overwrite : Bool) :
    Option MemoryStore := do
  let tx_entry ← mapLookup s.transactions txid
  if allow_overwrite || tx_entry.spending.isEmpty then
    let tx_entry2 := { tx_entry with spending := spending }
    let m := mapModify s.transactions txid (fun _ => tx_entry2)
    let s1 := { s with transactions := m }
    let tx_hist := HistoryEntry.new txid tx_entry2.status
    tx_entry2.scripthashes.foldlM (indexHistStep tx_hist) s1
  else none

/-- `MemoryStore::index_txo_spend` from src/store.rs lines 234-252
(`track-spends` capability): record that a prevout is consumed by an input,
silently overwriting a previously recorded spend, and return whether the
outpoint was previously unspent. -/
def MemoryStore.index_txo_spend (s : MemoryStore) (spent_prevout : OutPoint)
    (spending_input : InPoint) : Bool × MemoryStore :=
  let was_unspent := (mapLookup s.txo_spends spent_prevout).isNone
  (was_unspent,
    { s with txo_spends :=
        if was_unspent then mapInsert s.txo_spends spent_prevout spending_input
        else mapModify s.txo_spends spent_prevout (fun _ => spending_input) })

/-- The per-scripthash body of the `purge_tx` loop (src/store.rs lines
300-308), i.e. `remove_if` from `crate::util` applied to the scripthash map
with the closure that removes the old history entry (asserting it was
present) and requests entry deletion when the history set empties.
`remove_if` itself is not under src/; modelled from the spec (section 4.2,
purge_tx: "removes its HistoryEntry from that ScriptEntry and deletes the
ScriptEntry entirely if that was its last entry (assertion: the entry must
have existed)"). -/
def purgeHistStep (old_txhist : HistoryEntry)
    (m : List (Nat × ScriptEntry)) (scripthash : Nat) :
    Option (List (Nat × ScriptEntry)) := do
  let script_entry ← mapLookup m scripthash
  let rem := btreeRemoveB HistoryEntry.cmp old_txhist script_entry.history
  if rem.1 then
    some (if rem.2.isEmpty then mapErase m scripthash
      else mapModify m scripthash (fun e => { e with history := rem.2 }))
  else none

/-- The per-input body of the `purge_tx` spend-edge loop (src/store.rs lines
310-317): `remove_if` on the `txo_spends` map, removing the prevout edge
only when it still references the purged transaction, asserting the edge
exists. -/
def purgeSpendStep (txid : Nat) (spends : List (OutPoint × InPoint))
    (p : Nat × SpendingInfo) : Option (List (OutPoint × InPoint)) := do
  let spending_input ← mapLookup spends p.2.prevout
  some (if spending_input.txid = txid then mapErase spends p.2.prevout
    else spends)

/-- `MemoryStore::purge_tx` from src/store.rs lines 287-323: remove the
`TxEntry` (returning whether one existed); when one did, remove it from the
mempool map if it was unconfirmed, remove its history entry from every
scripthash it touched (deleting script entries whose history set empties,
asserting every touched entry existed), and drop recorded spend edges that
still reference the purged transaction. -/
def MemoryStore.purge_tx (s : MemoryStore) (txid : Nat) :
    Option (Bool × MemoryStore) :=
  match mapLookup s.transactions txid with
  | none => some (false, s)
  | some old_entry => do
    let s1 := { s with transactions := mapErase s.transactions txid }
    let s2 ←
      if old_entry.status.is_unconfirmed then
        if (mapLookup s1.mempool txid).isSome then
          some { s1 with mempool := mapErase s1.mempool txid }
        else none
      else some s1
    let old_txhist := HistoryEntry.new txid old_entry.status
    let scripthashes2 ← old_entry.scripthashes.foldlM
      (purgeHistStep old_txhist) s2.scripthashes
    let s3 := { s2 with scripthashes := scripthashes2 }
    let txo_spends2 ← old_entry.spending.foldlM (purgeSpendStep txid) s3.txo_spends
    some (true, { s3 with txo_spends := txo_spends2 })

/-! Read-side operations of the store (src/store.rs lines 325-413). -/

/-- `MemoryStore::get_history` from src/store.rs lines 351-353. -/
def MemoryStore.get_history (s : MemoryStore) (scripthash : Nat) :
    Option (List HistoryEntry) :=
  (mapLookup s.scripthashes scripthash).map (fun e => e.history)

/-- `MemoryStore::has_history` from src/store.rs lines 355-358. -/
def MemoryStore.has_history (s : MemoryStore) (scripthash : Nat) : Bool :=
  (mapLookup s.scripthashes scripthash).isSome

/-- `MemoryStore::get_tx_count` from src/store.rs lines 360-364. -/
def MemoryStore.get_tx_count (s : MemoryStore) (scripthash : Nat) : Nat :=
  match mapLookup s.scripthashes scripthash with
  | some script_entry => script_entry.history.length
  | none => 0

/-- `MemoryStore::get_tx_entry` from src/store.rs lines 366-368. -/
def MemoryStore.get_tx_entry (s : MemoryStore) (txid : Nat) : Option TxEntry :=
  mapLookup s.transactions txid

/-- `ScriptInfo` as produced by `ScriptInfo::from_entry` (src/store.rs lines
454-462; the `desc` and `bip32_origins` fields are always `None` there and
are omitted). -/
structure ScriptInfo where
  address : Nat
  scripthash : Nat
  origin : Nat
deriving DecidableEq, Repr

/-- `MemoryStore::get_script_info` from src/store.rs lines 374-377. -/
def MemoryStore.get_script_info (s : MemoryStore) (scripthash : Nat) :
    Option ScriptInfo :=
  (mapLookup s.scripthashes scripthash).map
    (fun e => { address := e.address, scripthash := scripthash, origin := e.origin })

/-! ### Store operation traces -/

/-- One mutating store operation (the public write interface of
`MemoryStore`). -/
inductive Op where
  | index_scripthash (scripthash origin address : Nat) : Op
  | upsert_tx (txid : Nat) (status : TxStatus) : Op
  | index_tx_output_funding (txid vout : Nat) (funding_info : FundingInfo) : Op
  | index_tx_inputs_spending (txid : Nat) (spending : List (Nat × SpendingInfo))
      (allow_overwrite : Bool) : Op
  | index_txo_spend (spent_prevout : OutPoint) (spending_input : InPoint) : Op
  | purge_tx (txid : Nat) : Op
deriving DecidableEq, Repr

/-- Apply one operation; `none` models a panic. -/
def applyOp (s : MemoryStore) : Op → Option MemoryStore
  | .index_scripthash sh o a => (s.index_scripthash sh o a).map (fun r => r.2)
  | .upsert_tx txid status => (s.upsert_tx txid status).map (fun r => r.2)
  | .index_tx_output_funding txid vout fi =>
    (s.index_tx_output_funding txid vout fi).map (fun r => r.2)
  | .index_tx_inputs_spending txid spending ow =>
    s.index_tx_inputs_spending txid spending ow
  | .index_txo_spend p i => some (s.index_txo_spend p i).2
  | .purge_tx txid => (s.purge_tx txid).map (fun r => r.2)

/-- Run a list of operations from the empty store. -/
def runOps (ops : List Op) : Option MemoryStore :=
  ops.foldlM applyOp MemoryStore.empty

/-- The calling discipline the spec states for `upsert_tx`: it is never
invoked with a `Conflicted` status. -/
def Op.viable : Op → Prop
  | .upsert_tx _ status => status.is_viable = true
  | _ => True

instance : DecidablePred Op.viable := fun op => by
  cases op <;> simp [Op.viable] <;> infer_instance

/-! ### The addrman index and query facade (src/addrman.rs) -/

/-- `TxEntry` from src/addrman.rs lines 43-47. -/
structure ATxEntry where
  status : TxStatus
  fee : Option Nat
deriving DecidableEq, Repr

/-- `ScriptEntry` from src/addrman.rs lines 30-35; its history set is the
sorted-list model of `BTreeSet<HistoryEntry>` under the addrman order
`HistoryEntry.addrman_cmp`. -/
structure AScriptEntry where
  address : Nat
  derivation_info : Nat
  history : List HistoryEntry
deriving DecidableEq, Repr

/-- `Index` from src/addrman.rs lines 24-28. -/
structure AIndex where
  scripthashes : List (Nat × AScriptEntry)
  transactions : List (Nat × ATxEntry)
deriving DecidableEq, Repr

/-- The index constructed by `Index::new` (src/addrman.rs lines 174-179). -/
def AIndex.empty : AIndex := { scripthashes := [], transactions := [] }

/-- `Index::get_history` from src/addrman.rs lines 363-365. -/
def AIndex.get_history (idx : AIndex) (scripthash : Nat) : Option (List HistoryEntry) :=
  (mapLookup idx.scripthashes scripthash).map (fun e => e.history)

/-- `Index::get_address` from src/addrman.rs lines 368-372. -/
def AIndex.get_address (idx : AIndex) (scripthash : Nat) : Option Nat :=
  (mapLookup idx.scripthashes scripthash).map (fun e => e.address)

/-- `Index::get_tx` from src/addrman.rs lines 374-376. -/
def AIndex.get_tx (idx : AIndex) (txid : Nat) : Option ATxEntry :=
  mapLookup idx.transactions txid

/-- `Tx` from src/addrman.rs lines 49-52. -/
structure ATx where
  txid : Nat
  entry : ATxEntry
deriving DecidableEq, Repr

/-- `AddrManager::get_history` from src/addrman.rs lines 106-120: the
scripthash's history (empty when the scripthash is unknown), with each
entry's `TxEntry` looked up (`or_err "missing tx"`). -/
def AddrManager.get_history (idx : AIndex) (scripthash : Nat) :
    Except String (List ATx) :=
  (((idx.get_history scripthash).getD []) : List HistoryEntry).mapM
    (fun hist =>
      match idx.get_tx hist.txid with
      | some entry => Except.ok { txid := hist.txid, entry := entry }
      | none => Except.error "missing tx")

/-- `ListUnspentResult` fields used by `Utxo::from_unspent`
(src/addrman.rs lines 63-70). -/
structure UnspentResult where
  txid : Nat
  vout : Nat
  confirmations : Int
  amount : Nat
deriving DecidableEq, Repr

/-- `Utxo` from src/addrman.rs lines 54-60. -/
structure Utxo where
  status : TxStatus
  txid : Nat
  vout : Nat
  value : Nat
deriving DecidableEq, Repr

/-- `Utxo::from_unspent` from src/addrman.rs lines 62-71. -/
def Utxo.from_unspent (unspent : UnspentResult) (tip_height : Nat) : Utxo :=
  { status := TxStatus.new unspent.confirmations tip_height,
    txid := unspent.txid, vout := unspent.vout, value := unspent.amount }

/-- The node RPC interface consumed by `AddrManager::list_unspent`,
modelled as a deterministic oracle (`get_block_count`, `get_block_hash`,
`get_best_block_hash`, `listunspent` by minimum confirmations and
address). -/
structure UtxoRpc where
  block_count : Nat
  block_hash : Nat → Nat
  best_block_hash : Nat
  listunspent : Nat → Nat → List UnspentResult

/-- `AddrManager::list_unspent` from src/addrman.rs lines 129-156: errors
with "unknown scripthash" when the index has no address for the
fingerprint; otherwise queries the node and retries the whole call when the
tip hash moved mid-request (the unbounded recursion is given a fuel bound;
running out of fuel is the "retry limit" outcome a real caller would add). -/
def AddrManager.list_unspent (idx : AIndex) (rpc : UtxoRpc)
    (scripthash min_conf : Nat) : Nat → Except String (List Utxo)
  | 0 =>
    match idx.get_address scripthash with
    | none => Except.error "unknown scripthash"
    | some address =>
      let tip_height := rpc.block_count
      let tip_hash := rpc.block_hash tip_height
      let unspents := rpc.listunspent min_conf address
      if tip_hash ≠ rpc.best_block_hash then Except.error "retry limit"
      else
        Except.ok ((unspents.map (fun u => Utxo.from_unspent u tip_height)).filter
          (fun u => u.status.is_viable))
  | fuel + 1 =>
    match idx.get_address scripthash with
    | none => Except.error "unknown scripthash"
    | some address =>
      let tip_height := rpc.block_count
      let tip_hash := rpc.block_hash tip_height
      let unspents := rpc.listunspent min_conf address
      if tip_hash ≠ rpc.best_block_hash then
        AddrManager.list_unspent idx rpc scripthash min_conf fuel
      else
        Except.ok ((unspents.map (fun u => Utxo.from_unspent u tip_height)).filter
          (fun u => u.status.is_viable))

/-- `AddrManager::get_balance` from src/addrman.rs lines 159-170: the
viable unspent outputs partitioned into (confirmed, unconfirmed) value
sums. -/
def AddrManager.get_balance (idx : AIndex) (rpc : UtxoRpc) (scripthash : Nat)
    (fuel : Nat) : Except String (Nat × Nat) :=
  match AddrManager.list_unspent idx rpc scripthash 0 fuel with
  | Except.error e => Except.error e
  | Except.ok utxos =>
    let viable := utxos.filter (fun u => u.status.is_viable)
    let confirmed := viable.filter (fun u => u.status.is_confirmed)
    let unconfirmed := viable.filter (fun u => !u.status.is_confirmed)
    Except.ok ((confirmed.map (fun u => u.value)).sum,
      (unconfirmed.map (fun u => u.value)).sum)

/-! ### The paginated sync driver (src/addrman.rs lines 476-540) -/

/-- Rust `as u32` on an `i32` value (two's-complement truncation). -/
def intAsU32 (i : Int) : Nat := (i % 2 ^ 32).toNat

/-- A `ListTransactionsResult` row: the fields `load_transactions_since`
reads (txid, address, confirmations). -/
structure Ltx where
  txid : Nat
  address : Nat
  confirmations : Int
deriving DecidableEq, Repr

/-- The node RPC interface consumed by `load_transactions_since`:
`listtransactions` takes a page size and a start offset and returns the
rows of that page (oldest first). -/
structure SyncRpc where
  block_count : Nat
  block_hash : Nat → Nat
  best_block_hash : Nat
  listtransactions : Nat → Nat → List Ltx

/-- The paging loop of `load_transactions_since` (src/addrman.rs lines
494-537), translated statement by statement.  State carried across
iterations: remaining fuel (the source recursion is unbounded), `per_page`,
`start_index`, `oldest_seen`, the tip height and hash captured at the last
(re)start, the number of pages handed to the chunk handler so far, and the
concatenation of all handled chunks (the chunk handler's view).  A
tip-hash change or page-overlap mismatch restarts the whole fetch, exactly
as the source's recursive `return load_transactions_since(...)` does. -/
def load_transactions_loop (rpc : SyncRpc) (start_height : Nat) :
    Nat → Nat → Nat → Option (Nat × Nat) → Nat → Nat → Nat → List Ltx →
    Option (Nat × List Ltx)
  | 0, _, _, _, _, _, _, _ => none
  | fuel + 1, per_page, start_index, oldest_seen, tip_height, tip_hash, pages, acc =>
    let chunk := rpc.listtransactions per_page start_index
    let exhausted := decide (chunk.length < per_page)
    if tip_hash ≠ rpc.best_block_hash then
      load_transactions_loop rpc start_height fuel per_page 0 none
        rpc.block_count (rpc.block_hash rpc.block_count) pages acc
    else
      let chunk_checked : Option (List Ltx) :=
        match oldest_seen with
        | none => some chunk
        | some os =>
          match chunk.getLast? with
          | some last_el =>
            if (last_el.txid, last_el.address) = os then some chunk.dropLast
            else none
          | none => none
      match chunk_checked with
      | none =>
        load_transactions_loop rpc start_height fuel per_page 0 none
          rpc.block_count (rpc.block_hash rpc.block_count) pages acc
      | some chunk2 =>
        match chunk2.getLast? with
        | some last =>
          let oldest2 := some (last.txid, last.address)
          let exhausted2 := exhausted ||
            (decide (0 < last.confirmations) &&
              decide (u32add (u32sub tip_height (intAsU32 last.confirmations)) 1 <
                start_height))
          let acc2 := acc ++ chunk2
          if exhausted2 then
            load_transactions_loop rpc start_height fuel (per_page * 2)
              (start_index + per_page - 1) oldest2 tip_height tip_hash (pages + 1) acc2
          else some (pages + 1, acc2)
        | none =>
          if exhausted then
            load_transactions_loop rpc start_height fuel (per_page * 2)
              (start_index + per_page - 1) oldest_seen tip_height tip_hash (pages + 1) acc
          else some (pages + 1, acc)

/-- `load_transactions_since` from src/addrman.rs lines 476-540, returning
the number of pages handed to the chunk handler and the concatenated
handled rows.  `none` models fuel exhaustion of the unbounded retry
recursion. -/
def load_transactions_since (rpc : SyncRpc) (init_per_page start_height fuel : Nat) :
    Option (Nat × List Ltx) :=
  load_transactions_loop rpc start_height fuel init_per_page 0 none
    rpc.block_count (rpc.block_hash rpc.block_count) 0 []

/-! ### Derived predicates used by the claims -/

/-- The contents of a `BTreeSet<HistoryEntry>` (store order) after inserting
the given entries one by one, in the given order. -/
def buildHistory (l : List HistoryEntry) : List HistoryEntry :=
  l.foldl (fun acc x => (btreeInsertB HistoryEntry.cmp x acc).2) []

/-- The contents of a `BTreeSet<HistoryEntry>` under the addrman order
(src/addrman.rs lines 412-416) after inserting the given entries one by
one, in the given order. -/
def buildHistoryAddrman (l : List HistoryEntry) : List HistoryEntry :=
  l.foldl (fun acc x => (btreeInsertB HistoryEntry.addrman_cmp x acc).2) []

/-- Every history set of the store is sorted (the `BTreeSet` representation
invariant). -/
def HistoriesSorted (s : MemoryStore) : Prop :=
  ∀ p ∈ s.scripthashes, HSorted p.2.history

/-- Forward/reverse consistency of the store: every history entry of every
script entry points at an indexed transaction with the same status whose
funding/spending maps reference that scripthash. -/
def HistConsistent (s : MemoryStore) : Prop :=
  ∀ p ∈ s.scripthashes, ∀ h ∈ p.2.history,
    OptSat (mapLookup s.transactions h.txid)
      (fun te => h.status = te.status ∧ p.1 ∈ te.scripthashes)

/-- The mempool map holds exactly the unconfirmed indexed transactions. -/
def MempoolInvL (s : MemoryStore) : Prop :=
  (∀ q ∈ s.mempool,
    OptSat (mapLookup s.transactions q.1) (fun te => te.status = TxStatus.unconfirmed)) ∧
  (∀ q ∈ s.transactions,
    q.2.status = TxStatus.unconfirmed → (mapLookup s.mempool q.1).isSome = true)

/-- The store consistency invariant used for the purge and status-update
claims. -/
def StoreInv (s : MemoryStore) : Prop :=
  HistoriesSorted s ∧ HistConsistent s ∧ MempoolInvL s

instance (l : List HistoryEntry) : Decidable (HSorted l) :=
  inferInstanceAs (Decidable (List.Pairwise _ l))

instance (s : MemoryStore) : Decidable (HistoriesSorted s) :=
  inferInstanceAs (Decidable (∀ p ∈ s.scripthashes, HSorted p.2.history))

instance (s : MemoryStore) : Decidable (HistConsistent s) :=
  inferInstanceAs (Decidable (∀ p ∈ s.scripthashes, ∀ h ∈ p.2.history,
    OptSat (mapLookup s.transactions h.txid)
      (fun te => h.status = te.status ∧ p.1 ∈ te.scripthashes)))

instance (s : MemoryStore) : Decidable (MempoolInvL s) :=
  inferInstanceAs (Decidable ((∀ q ∈ s.mempool,
    OptSat (mapLookup s.transactions q.1)
      (fun te => te.status = TxStatus.unconfirmed)) ∧
    (∀ q ∈ s.transactions, q.2.status = TxStatus.unconfirmed →
      (mapLookup s.mempool q.1).isSome = true)))

instance (s : MemoryStore) : Decidable (StoreInv s) :=
  inferInstanceAs (Decidable (HistoriesSorted s ∧ HistConsistent s ∧ MempoolInvL s))

/-- No conflicted status is stored anywhere: neither in a `TxEntry` nor in
any script entry's history set. -/
def NoConflicted (s : MemoryStore) : Prop :=
  (∀ p ∈ s.transactions, p.2.status ≠ TxStatus.conflicted) ∧
  (∀ p ∈ s.scripthashes, ∀ h ∈ p.2.history, h.status ≠ TxStatus.conflicted)

/-! ### Concrete inputs used by counterexamples and witnesses -/

/-- A node history of 26 viable (unconfirmed) transactions, oldest first. -/
def feed26 : List Ltx :=
  (List.range 26).map (fun i => { txid := i, address := i, confirmations := 0 })

/-- A stable node oracle serving `feed26`: `listtransactions count skip`
returns the `count` most recent rows after skipping the `skip` most recent,
oldest first; the tip never moves. -/
def syncOracle26 : SyncRpc :=
  { block_count := 100, block_hash := fun _ => 7, best_block_hash := 7,
    listtransactions := fun count skip =>
      (feed26.take (26 - skip)).drop (26 - skip - count) }

/-- The script entry of the witness store `wStore`. -/
def wScriptEntry : ScriptEntry :=
  { address := 3, origin := 2,
    history := [{ txid := 7, status := TxStatus.unconfirmed }] }

/-- The transaction entry of the witness store `wStore`. -/
def wTxEntry : TxEntry :=
  { status := TxStatus.unconfirmed,
    funding := [(0, { scripthash := 1, value := 5000 })], spending := [] }

/-- A small populated store used by witnesses: scripthash 1 funded by the
currently unconfirmed transaction 7 (reachable, e.g. by indexing the
scripthash, upserting the transaction and indexing the funding output). -/
def wStore : MemoryStore :=
  { scripthashes := [(1, wScriptEntry)], transactions := [(7, wTxEntry)],
    mempool := [(7, none)], txo_spends := [] }

/-- The store produced by `wStore.update_tx_status 7 Unconfirmed
(Confirmed 100)`: the history entry of scripthash 1 rewritten and the
mempool entry dropped. -/
def wStoreConfirmed : MemoryStore :=
  { scripthashes := [(1, { address := 3, origin := 2, history := [{ txid := 7, status := TxStatus.confirmed 100 }] })],
    transactions := [(7, wTxEntry)],
    mempool := [], txo_spends := [] }

/-- The store reached from empty by `index_scripthash(1, origin 2,
address 3)` alone: it holds a `ScriptEntry` with an empty history set. -/
def emptyHistoryStore : MemoryStore :=
  { scripthashes := [(1, { address := 3, origin := 2, history := [] })],
    transactions := [], mempool := [], txo_spends := [] }

/-! ### Order lemmas -/

theorem TxStatus.cmp_eq_iff (a b : TxStatus) : TxStatus.cmp a b = Ordering.eq ↔ a = b := by
  cases a <;> cases b <;>
    simp [TxStatus.cmp, Nat.compare_eq_eq]

theorem TxStatus.cmp_lt_iff (a b : TxStatus) :
    TxStatus.cmp a b = Ordering.lt ↔ specStatusLt a b := by
  cases a <;> cases b <;>
    simp [TxStatus.cmp, specStatusLt, Nat.compare_eq_lt]

theorem TxStatus.cmp_gt_iff (a b : TxStatus) :
    TxStatus.cmp a b = Ordering.gt ↔ specStatusLt b a := by
  cases a <;> cases b <;>
    simp [TxStatus.cmp, specStatusLt, Nat.compare_eq_gt]

theorem specStatusLt_irrefl (a : TxStatus) : ¬ specStatusLt a a := by
  cases a <;> simp [specStatusLt]

theorem specStatusLt_trans {a b c : TxStatus} :
    specStatusLt a b → specStatusLt b c → specStatusLt a c := by
  cases a <;> cases b <;> cases c <;> simp [specStatusLt] <;> omega

theorem specStatusLt_asymm {a b : TxStatus} :
    specStatusLt a b → ¬ specStatusLt b a := by
  cases a <;> cases b <;> simp [specStatusLt] <;> omega

theorem hist_cmp_eq_iff (a b : HistoryEntry) :
    HistoryEntry.cmp a b = Ordering.eq ↔ a = b := by
  obtain ⟨ta, sa⟩ := a
  obtain ⟨tb, sb⟩ := b
  simp only [HistoryEntry.cmp]
  rcases h : TxStatus.cmp sa sb with - | - | -
  · simp only [Ordering.then]
    constructor
    · intro hh; cases hh
    · rintro ⟨⟩
      rw [(TxStatus.cmp_eq_iff sa sa).2 rfl] at h
      cases h
  · rw [(TxStatus.cmp_eq_iff sa sb).1 h]
    simp [Ordering.then, Nat.compare_eq_eq, HistoryEntry.mk.injEq]
  · simp only [Ordering.then]
    constructor
    · intro hh; cases hh
    · rintro ⟨⟩
      rw [(TxStatus.cmp_eq_iff sa sa).2 rfl] at h
      cases h

theorem hist_cmp_lt_iff (a b : HistoryEntry) :
    HistoryEntry.cmp a b = Ordering.lt ↔ specHistLt a b := by
  obtain ⟨ta, sa⟩ := a
  obtain ⟨tb, sb⟩ := b
  simp only [HistoryEntry.cmp, specHistLt]
  rcases h : TxStatus.cmp sa sb with - | - | -
  · simp only [Ordering.then]
    simp only [(TxStatus.cmp_lt_iff sa sb).1 h]
    simp
  · have he := (TxStatus.cmp_eq_iff sa sb).1 h
    subst he
    simp only [Ordering.then]
    have : ¬ specStatusLt sa sa := specStatusLt_irrefl sa
    simp [this, Nat.compare_eq_lt]
  · simp only [Ordering.then]
    have hgt := (TxStatus.cmp_gt_iff sa sb).1 h
    have h1 : ¬ specStatusLt sa sb := specStatusLt_asymm hgt
    have h2 : sa ≠ sb := by
      rintro rfl; exact specStatusLt_irrefl sa hgt
    simp [h1, h2]

theorem hist_cmp_gt_iff (a b : HistoryEntry) :
    HistoryEntry.cmp a b = Ordering.gt ↔ specHistLt b a := by
  rcases h : HistoryEntry.cmp a b with - | - | -
  · have := (hist_cmp_lt_iff a b).1 h
    simp only [specHistLt] at this ⊢
    constructor
    · intro hh; cases hh
    · rcases this with hlt | ⟨he, ht⟩
      · rintro (hlt2 | ⟨he2, -⟩)
        · exact absurd hlt (specStatusLt_asymm hlt2)
        · rw [he2] at hlt; exact absurd hlt (specStatusLt_irrefl _)
      · rintro (hlt2 | ⟨-, ht2⟩)
        · rw [he] at hlt2; exact absurd hlt2 (specStatusLt_irrefl _)
        · omega
  · have := (hist_cmp_eq_iff a b).1 h
    subst this
    simp only [specHistLt]
    constructor
    · intro hh; cases hh
    · rintro (hlt | ⟨-, ht⟩)
      · exact absurd hlt (specStatusLt_irrefl _)
      · omega
  · simp only [true_iff]
    obtain ⟨ta, sa⟩ := a
    obtain ⟨tb, sb⟩ := b
    simp only [HistoryEntry.cmp] at h
    simp only [specHistLt]
    rcases hs : TxStatus.cmp sa sb with - | - | -
    · rw [hs] at h; simp [Ordering.then] at h
    · rw [hs] at h
      have he := (TxStatus.cmp_eq_iff sa sb).1 hs
      simp only [Ordering.then] at h
      right
      exact ⟨he.symm, by simpa [Nat.compare_eq_gt] using h⟩
    · left
      exact (TxStatus.cmp_gt_iff sa sb).1 hs

theorem specHistLt_irrefl (a : HistoryEntry) : ¬ specHistLt a a := by
  simp [specHistLt, specStatusLt_irrefl]

theorem specHistLt_trans {a b c : HistoryEntry} :
    specHistLt a b → specHistLt b c → specHistLt a c := by
  rintro (h1 | ⟨e1, t1⟩) (h2 | ⟨e2, t2⟩)
  · exact Or.inl (specStatusLt_trans h1 h2)
  · exact Or.inl (e2 ▸ h1)
  · exact Or.inl (e1 ▸ h2)
  · exact Or.inr ⟨e1.trans e2, t1.trans t2⟩

theorem specHistLt_asymm {a b : HistoryEntry} :
    specHistLt a b → ¬ specHistLt b a := by
  rintro (h1 | ⟨e1, t1⟩) (h2 | ⟨e2, t2⟩)
  · exact specStatusLt_asymm h1 h2
  · rw [e2] at h1; exact specStatusLt_irrefl _ h1
  · rw [e1] at h2; exact specStatusLt_irrefl _ h2
  · omega

/-! ### BTreeSet model lemmas -/

theorem HSorted_nil : HSorted [] := List.Pairwise.nil

theorem HSorted_cons {a : HistoryEntry} {l : List HistoryEntry} :
    HSorted (a :: l) ↔
      (∀ b ∈ l, HistoryEntry.cmp a b = Ordering.lt) ∧ HSorted l :=
  List.pairwise_cons

theorem btreeInsertB_snd_ne_nil {α : Type} (cmp : α → α → Ordering) (x : α)
    (l : List α) : (btreeInsertB cmp x l).2 ≠ [] := by
  cases l with
  | nil => simp [btreeInsertB]
  | cons y ys =>
    simp only [btreeInsertB]
    rcases cmp x y with - | - | - <;> simp

theorem mem_btreeInsertB {α : Type} {cmp : α → α → Ordering} {x a : α}
    {l : List α} (h : a ∈ (btreeInsertB cmp x l).2) : a = x ∨ a ∈ l := by
  induction l with
  | nil => simpa [btreeInsertB] using h
  | cons y ys ih =>
    simp only [btreeInsertB] at h
    rcases hc : cmp x y with - | - | - <;> rw [hc] at h
    · simp only [List.mem_cons] at h
      rcases h with h | h | h
      · exact Or.inl h
      · exact Or.inr (by simp [h])
      · exact Or.inr (by simp [h])
    · simp only [List.mem_cons] at h
      rcases h with h | h
      · exact Or.inr (by simp [h])
      · exact Or.inr (by simp [h])
    · simp only [List.mem_cons] at h
      rcases h with h | h
      · exact Or.inr (by simp [h])
      · rcases ih h with h | h
        · exact Or.inl h
        · exact Or.inr (by simp [h])

theorem mem_btreeInsertB_of_mem {α : Type} {cmp : α → α → Ordering} {x a : α}
    {l : List α} (h : a ∈ l) : a ∈ (btreeInsertB cmp x l).2 := by
  induction l with
  | nil => cases h
  | cons y ys ih =>
    simp only [btreeInsertB]
    rcases hc : cmp x y with - | - | -
    · simp only [List.mem_cons] at h ⊢
      tauto
    · exact h
    · simp only [List.mem_cons] at h
      rcases h with h | h
      · simp [h]
      · simp [ih h]

theorem self_mem_btreeInsertB (x : HistoryEntry) (l : List HistoryEntry) :
    x ∈ (btreeInsertB HistoryEntry.cmp x l).2 := by
  induction l with
  | nil => simp [btreeInsertB]
  | cons y ys ih =>
    simp only [btreeInsertB]
    rcases hc : HistoryEntry.cmp x y with - | - | -
    · simp
    · have := (hist_cmp_eq_iff x y).1 hc
      simp [this]
    · simp [ih]

theorem mem_btreeInsertB_iff {x a : HistoryEntry} {l : List HistoryEntry} :
    a ∈ (btreeInsertB HistoryEntry.cmp x l).2 ↔ a = x ∨ a ∈ l := by
  constructor
  · exact mem_btreeInsertB
  · rintro (rfl | h)
    · exact self_mem_btreeInsertB a l
    · exact mem_btreeInsertB_of_mem h

theorem mem_btreeRemoveB {α : Type} {cmp : α → α → Ordering} {x a : α}
    {l : List α} (h : a ∈ (btreeRemoveB cmp x l).2) : a ∈ l := by
  induction l with
  | nil => simpa [btreeRemoveB] using h
  | cons y ys ih =>
    simp only [btreeRemoveB] at h
    rcases hc : cmp x y with - | - | - <;> rw [hc] at h
    · exact h
    · simp [h]
    · simp only [List.mem_cons] at h
      rcases h with h | h
      · simp [h]
      · simp [ih h]

theorem HSorted_btreeInsertB {x : HistoryEntry} {l : List HistoryEntry}
    (hs : HSorted l) : HSorted (btreeInsertB HistoryEntry.cmp x l).2 := by
  induction l with
  | nil =>
    simp only [btreeInsertB]
    exact HSorted_cons.2 ⟨by simp, HSorted_nil⟩
  | cons y ys ih =>
    obtain ⟨hy, hys⟩ := HSorted_cons.1 hs
    simp only [btreeInsertB]
    rcases hc : HistoryEntry.cmp x y with - | - | -
    · refine HSorted_cons.2 ⟨?_, hs⟩
      intro b hb
      simp only [List.mem_cons] at hb
      rcases hb with rfl | hb
      · exact hc
      · have h1 := (hist_cmp_lt_iff x y).1 hc
        have h2 := (hist_cmp_lt_iff y b).1 (hy b hb)
        exact (hist_cmp_lt_iff x b).2 (specHistLt_trans h1 h2)
    · exact hs
    · refine HSorted_cons.2 ⟨?_, ih hys⟩
      intro b hb
      rcases mem_btreeInsertB hb with rfl | hb
      · exact (hist_cmp_lt_iff y b).2
          ((hist_cmp_gt_iff b y).1 hc)
      · exact hy b hb

theorem HSorted_btreeRemoveB {x : HistoryEntry} {l : List HistoryEntry}
    (hs : HSorted l) : HSorted (btreeRemoveB HistoryEntry.cmp x l).2 := by
  induction l with
  | nil => exact hs
  | cons y ys ih =>
    obtain ⟨hy, hys⟩ := HSorted_cons.1 hs
    simp only [btreeRemoveB]
    rcases hc : HistoryEntry.cmp x y with - | - | -
    · exact hs
    · exact hys
    · exact HSorted_cons.2 ⟨fun b hb => hy b (mem_btreeRemoveB hb), ih hys⟩

theorem not_mem_btreeRemoveB {x : HistoryEntry} {l : List HistoryEntry}
    (hs : HSorted l) : x ∉ (btreeRemoveB HistoryEntry.cmp x l).2 := by
  induction l with
  | nil => simp [btreeRemoveB]
  | cons y ys ih =>
    obtain ⟨hy, hys⟩ := HSorted_cons.1 hs
    simp only [btreeRemoveB]
    rcases hc : HistoryEntry.cmp x y with - | - | -
    · intro hmem
      simp only [List.mem_cons] at hmem
      rcases hmem with rfl | hmem
      · rw [(hist_cmp_eq_iff x x).2 rfl] at hc; cases hc
      · have hlt := (hist_cmp_lt_iff y x).1 (hy x hmem)
        have hlt2 := (hist_cmp_lt_iff x y).1 hc
        exact specHistLt_asymm hlt2 hlt
    · intro hmem
      have hlt := (hist_cmp_lt_iff y x).1 (hy x hmem)
      have heq := (hist_cmp_eq_iff x y).1 hc
      rw [heq] at hlt
      exact specHistLt_irrefl _ hlt
    · intro hmem
      simp only [List.mem_cons] at hmem
      rcases hmem with rfl | hmem
      · rw [(hist_cmp_eq_iff x x).2 rfl] at hc; cases hc
      · exact ih hys hmem

theorem sorted_mem_ext {l l2 : List HistoryEntry} (h1 : HSorted l)
    (h2 : HSorted l2) (hm : ∀ x, x ∈ l ↔ x ∈ l2) : l = l2 := by
  induction l generalizing l2 with
  | nil =>
    cases l2 with
    | nil => rfl
    | cons b bs => exact absurd ((hm b).2 (by simp)) (by simp)
  | cons a as ih =>
    cases l2 with
    | nil => exact absurd ((hm a).1 (by simp)) (by simp)
    | cons b bs =>
      obtain ⟨ha, has⟩ := HSorted_cons.1 h1
      obtain ⟨hb, hbs⟩ := HSorted_cons.1 h2
      have hab : a = b := by
        have hma := (hm a).1 (by simp)
        have hmb := (hm b).2 (by simp)
        simp only [List.mem_cons] at hma hmb
        rcases hma with h | h
        · exact h
        · rcases hmb with h' | h'
          · exact h'.symm
          · have l1 := (hist_cmp_lt_iff b a).1 (hb a h)
            have l2 := (hist_cmp_lt_iff a b).1 (ha b h')
            exact absurd l1 (specHistLt_asymm l2)
      subst hab
      have htail : ∀ x, x ∈ as ↔ x ∈ bs := by
        intro x
        constructor
        · intro hx
          have := (hm x).1 (by simp [hx])
          simp only [List.mem_cons] at this
          rcases this with rfl | h
          · exact absurd ((hist_cmp_lt_iff x x).1 (ha x hx))
              (specHistLt_irrefl x)
          · exact h
        · intro hx
          have := (hm x).2 (by simp [hx])
          simp only [List.mem_cons] at this
          rcases this with rfl | h
          · exact absurd ((hist_cmp_lt_iff x x).1 (hb x hx))
              (specHistLt_irrefl x)
          · exact h
      rw [ih has hbs htail]

theorem HSorted_foldl_insert (l : List HistoryEntry) (acc : List HistoryEntry)
    (hacc : HSorted acc) :
    HSorted (l.foldl (fun acc x => (btreeInsertB HistoryEntry.cmp x acc).2) acc) := by
  induction l generalizing acc with
  | nil => exact hacc
  | cons a as ih => exact ih _ (HSorted_btreeInsertB hacc)

theorem mem_foldl_insert (l : List HistoryEntry) (acc : List HistoryEntry)
    (a : HistoryEntry) :
    a ∈ l.foldl (fun acc x => (btreeInsertB HistoryEntry.cmp x acc).2) acc ↔
      a ∈ acc ∨ a ∈ l := by
  induction l generalizing acc with
  | nil => simp
  | cons b bs ih =>
    simp only [List.foldl_cons, ih, mem_btreeInsertB_iff, List.mem_cons]
    tauto

theorem HSorted_buildHistory (l : List HistoryEntry) : HSorted (buildHistory l) :=
  HSorted_foldl_insert l [] HSorted_nil

theorem mem_buildHistory (l : List HistoryEntry) (a : HistoryEntry) :
    a ∈ buildHistory l ↔ a ∈ l := by
  rw [buildHistory, mem_foldl_insert]
  simp

theorem buildHistory_perm_eq {l l2 : List HistoryEntry} (h : l.Perm l2) :
    buildHistory l = buildHistory l2 := by
  refine sorted_mem_ext (HSorted_buildHistory l) (HSorted_buildHistory l2) ?_
  intro x
  rw [mem_buildHistory, mem_buildHistory]
  exact ⟨fun hx => h.mem_iff.1 hx, fun hx => h.mem_iff.2 hx⟩

/-! ### Association-list lemmas -/

theorem mapLookup_insert_self {α β : Type} [DecidableEq α] {m : List (α × β)}
    {k : α} (v : β) (h : mapLookup m k = none) :
    mapLookup (mapInsert m k v) k = some v := by
  induction m with
  | nil => simp [mapLookup, mapInsert]
  | cons kv rest ih =>
    simp only [mapLookup] at h
    by_cases hk : kv.1 = k
    · simp [hk] at h
    · simp only [mapInsert, List.cons_append, mapLookup, hk, if_neg hk] at h ⊢
      exact ih h

theorem mapLookup_insert_ne {α β : Type} [DecidableEq α] {m : List (α × β)}
    {k k' : α} (v : β) (h : k' ≠ k) :
    mapLookup (mapInsert m k v) k' = mapLookup m k' := by
  induction m with
  | nil =>
    simp only [mapInsert, List.nil_append, mapLookup]
    have : ¬ k = k' := fun hh => h hh.symm
    simp [this]
  | cons kv rest ih =>
    by_cases hk : kv.1 = k'
    · simp [mapInsert, mapLookup, hk]
    · simp only [mapInsert, List.cons_append, mapLookup, hk, if_neg hk] at ih ⊢
      exact ih

theorem mapLookup_erase_self {α β : Type} [DecidableEq α] (m : List (α × β))
    (k : α) : mapLookup (mapErase m k) k = none := by
  induction m with
  | nil => simp [mapErase, mapLookup]
  | cons kv rest ih =>
    simp only [mapErase]
    by_cases hk : kv.1 = k
    · simpa [hk] using ih
    · simpa [mapLookup, hk] using ih

theorem mapLookup_erase_ne {α β : Type} [DecidableEq α] {m : List (α × β)}
    {k k' : α} (h : k' ≠ k) :
    mapLookup (mapErase m k) k' = mapLookup m k' := by
  induction m with
  | nil => simp [mapErase]
  | cons kv rest ih =>
    simp only [mapErase]
    by_cases hk : kv.1 = k
    · rw [if_pos hk, ih, mapLookup]
      have : kv.1 ≠ k' := by rw [hk]; exact fun hh => h hh.symm
      simp [this]
    · rw [if_neg hk]
      simp only [mapLookup]
      by_cases hk' : kv.1 = k'
      · simp [hk']
      · simp [hk', ih]

theorem mapLookup_modify_self {α β : Type} [DecidableEq α] (m : List (α × β))
    (k : α) (f : β → β) :
    mapLookup (mapModify m k f) k = (mapLookup m k).map f := by
  induction m with
  | nil => simp [mapModify, mapLookup]
  | cons kv rest ih =>
    simp only [mapModify]
    by_cases hk : kv.1 = k
    · simp [mapLookup, hk]
    · simpa [mapLookup, hk] using ih

theorem mapLookup_modify_ne {α β : Type} [DecidableEq α] {m : List (α × β)}
    {k k' : α} (f : β → β) (h : k' ≠ k) :
    mapLookup (mapModify m k f) k' = mapLookup m k' := by
  induction m with
  | nil => simp [mapModify]
  | cons kv rest ih =>
    have hkk : ¬ k = k' := fun hh => h hh.symm
    simp only [mapModify]
    by_cases hk : kv.1 = k
    · rw [if_pos hk]
      simp only [mapLookup, hk]
      simp [hkk, ih]
    · rw [if_neg hk]
      simp only [mapLookup]
      by_cases hk' : kv.1 = k'
      · simp [hk']
      · simp [hk', ih]

theorem mapLookup_mem {α β : Type} [DecidableEq α] {m : List (α × β)} {k : α}
    {v : β} (h : mapLookup m k = some v) : (k, v) ∈ m := by
  induction m with
  | nil => cases h
  | cons kv rest ih =>
    simp only [mapLookup] at h
    by_cases hk : kv.1 = k
    · rw [if_pos hk] at h
      have hv : kv.2 = v := by injection h
      have : (k, v) = kv := by
        rw [← hk, ← hv]
      rw [this]
      exact List.mem_cons_self kv rest
    · rw [if_neg hk] at h
      exact List.mem_cons_of_mem _ (ih h)

theorem mem_mapInsert {α β : Type} {m : List (α × β)} {k : α} {v : β}
    {p : α × β} (h : p ∈ mapInsert m k v) : p ∈ m ∨ p = (k, v) := by
  simp only [mapInsert, List.mem_append, List.mem_singleton] at h
  exact h

theorem mem_mapErase {α β : Type} [DecidableEq α] {m : List (α × β)} {k : α}
    {p : α × β} (h : p ∈ mapErase m k) : p ∈ m := by
  induction m with
  | nil => simpa [mapErase] using h
  | cons kv rest ih =>
    simp only [mapErase] at h
    by_cases hk : kv.1 = k
    · rw [if_pos hk] at h
      exact List.mem_cons_of_mem _ (ih h)
    · rw [if_neg hk] at h
      rcases List.mem_cons.1 h with rfl | h
      · simp
      · exact List.mem_cons_of_mem _ (ih h)

theorem mem_mapModify {α β : Type} [DecidableEq α] {m : List (α × β)} {k : α}
    {f : β → β} {p : α × β} (h : p ∈ mapModify m k f) :
    p ∈ m ∨ ∃ v, (k, v) ∈ m ∧ p = (k, f v) := by
  induction m with
  | nil => simpa [mapModify] using h
  | cons kv rest ih =>
    simp only [mapModify] at h
    by_cases hk : kv.1 = k
    · rw [if_pos hk] at h
      rcases List.mem_cons.1 h with rfl | h
      · exact Or.inr ⟨kv.2, by simp [← hk]⟩
      · rcases ih h with h | ⟨v, hv, rfl⟩
        · exact Or.inl (List.mem_cons_of_mem _ h)
        · exact Or.inr ⟨v, List.mem_cons_of_mem _ hv, rfl⟩
    · rw [if_neg hk] at h
      rcases List.mem_cons.1 h with rfl | h
      · exact Or.inl (by simp)
      · rcases ih h with h | ⟨v, hv, rfl⟩
        · exact Or.inl (List.mem_cons_of_mem _ h)
        · exact Or.inr ⟨v, List.mem_cons_of_mem _ hv, rfl⟩

/-! ### foldlM machinery -/

theorem foldlM_option_preserve {α β : Type} {f : β → α → Option β}
    {P : β → Prop} {Q : α → Prop}
    (hstep : ∀ b a b2, Q a → P b → f b a = some b2 → P b2) :
    ∀ {l : List α} {b b2 : β}, (∀ a ∈ l, Q a) → P b →
      List.foldlM f b l = some b2 → P b2 := by
  intro l
  induction l with
  | nil =>
    intro b b2 _ hP h
    simp only [List.foldlM_nil] at h
    cases h
    exact hP
  | cons a as ih =>
    intro b b2 hQ hP h
    simp only [List.foldlM_cons, Option.bind_eq_bind, Option.bind_eq_some] at h
    obtain ⟨b1, h1, h2⟩ := h
    exact ih (fun x hx => hQ x (List.mem_cons_of_mem _ hx))
      (hstep b a b1 (hQ a (by simp)) hP h1) h2

theorem updateHistStep_frame {o n : HistoryEntry}
    {m m1 : List (Nat × ScriptEntry)} {a sh : Nat}
    (h : updateHistStep o n m a = some m1) (hne : sh ≠ a) :
    mapLookup m1 sh = mapLookup m sh := by
  simp only [updateHistStep, Option.bind_eq_bind, Option.bind_eq_some] at h
  obtain ⟨e, he, h⟩ := h
  by_cases hr : (btreeRemoveB HistoryEntry.cmp o e.history).1 = true
  · rw [if_pos hr] at h
    by_cases hi : (btreeInsertB HistoryEntry.cmp n
        (btreeRemoveB HistoryEntry.cmp o e.history).2).1 = true
    · rw [if_pos hi] at h
      cases h
      exact mapLookup_modify_ne _ hne
    · rw [if_neg hi] at h
      cases h
  · rw [if_neg hr] at h
    cases h

theorem updateHistStep_self {o n : HistoryEntry}
    {m m1 : List (Nat × ScriptEntry)} {a : Nat}
    (h : updateHistStep o n m a = some m1) :
    ∃ e, mapLookup m a = some e ∧
      (btreeRemoveB HistoryEntry.cmp o e.history).1 = true ∧
      (btreeInsertB HistoryEntry.cmp n
        (btreeRemoveB HistoryEntry.cmp o e.history).2).1 = true ∧
      mapLookup m1 a = some { e with history :=
        (btreeInsertB HistoryEntry.cmp n
          (btreeRemoveB HistoryEntry.cmp o e.history).2).2 } := by
  simp only [updateHistStep, Option.bind_eq_bind, Option.bind_eq_some] at h
  obtain ⟨e, he, h⟩ := h
  by_cases hr : (btreeRemoveB HistoryEntry.cmp o e.history).1 = true
  · rw [if_pos hr] at h
    by_cases hi : (btreeInsertB HistoryEntry.cmp n
        (btreeRemoveB HistoryEntry.cmp o e.history).2).1 = true
    · rw [if_pos hi] at h
      cases h
      refine ⟨e, he, hr, hi, ?_⟩
      rw [mapLookup_modify_self, he]
      rfl
    · rw [if_neg hi] at h
      cases h
  · rw [if_neg hr] at h
    cases h

theorem updateHist_fold_lookup {o n : HistoryEntry} :
    ∀ {l : List Nat} {m m2 : List (Nat × ScriptEntry)},
      l.Nodup →
      List.foldlM (updateHistStep o n) m l = some m2 →
      (∀ sh, sh ∉ l → mapLookup m2 sh = mapLookup m sh) ∧
      (∀ sh ∈ l, ∃ e, mapLookup m sh = some e ∧
        (btreeRemoveB HistoryEntry.cmp o e.history).1 = true ∧
        (btreeInsertB HistoryEntry.cmp n
          (btreeRemoveB HistoryEntry.cmp o e.history).2).1 = true ∧
        mapLookup m2 sh = some { e with history :=
          (btreeInsertB HistoryEntry.cmp n
            (btreeRemoveB HistoryEntry.cmp o e.history).2).2 }) := by
  intro l
  induction l with
  | nil =>
    intro m m2 _ h
    simp only [List.foldlM_nil] at h
    cases h
    exact ⟨fun sh _ => rfl, by simp⟩
  | cons a as ih =>
    intro m m2 hnd h
    simp only [List.foldlM_cons, Option.bind_eq_bind, Option.bind_eq_some] at h
    obtain ⟨m1, h1, h2⟩ := h
    obtain ⟨ha_not_mem, hnd_as⟩ := List.nodup_cons.1 hnd
    obtain ⟨ihframe, ihmem⟩ := ih hnd_as h2
    constructor
    · intro sh hsh
      simp only [List.mem_cons, not_or] at hsh
      rw [ihframe sh hsh.2, updateHistStep_frame h1 hsh.1]
    · intro sh hsh
      rcases List.mem_cons.1 hsh with rfl | hsh
      · obtain ⟨e, he, hr, hi, hm1⟩ := updateHistStep_self h1
        exact ⟨e, he, hr, hi, by rw [ihframe sh ha_not_mem, hm1]⟩
      · obtain ⟨e, he, hr, hi, hm2⟩ := ihmem sh hsh
        have hne : sh ≠ a := fun hh => ha_not_mem (hh ▸ hsh)
        exact ⟨e, by rw [← updateHistStep_frame h1 hne, he], hr, hi, hm2⟩

theorem purgeHistStep_frame {o : HistoryEntry}
    {m m1 : List (Nat × ScriptEntry)} {a sh : Nat}
    (h : purgeHistStep o m a = some m1) (hne : sh ≠ a) :
    mapLookup m1 sh = mapLookup m sh := by
  simp only [purgeHistStep, Option.bind_eq_bind, Option.bind_eq_some] at h
  obtain ⟨e, he, h⟩ := h
  by_cases hr : (btreeRemoveB HistoryEntry.cmp o e.history).1 = true
  · rw [if_pos hr] at h
    cases h
    by_cases hemp : (btreeRemoveB HistoryEntry.cmp o e.history).2.isEmpty
    · rw [if_pos hemp]
      exact mapLookup_erase_ne hne
    · rw [if_neg hemp]
      exact mapLookup_modify_ne _ hne
  · rw [if_neg hr] at h
    cases h

theorem purgeHistStep_self {o : HistoryEntry}
    {m m1 : List (Nat × ScriptEntry)} {a : Nat}
    (h : purgeHistStep o m a = some m1) :
    ∃ e, mapLookup m a = some e ∧
      (btreeRemoveB HistoryEntry.cmp o e.history).1 = true ∧
      ((btreeRemoveB HistoryEntry.cmp o e.history).2 = [] ∧
          mapLookup m1 a = none ∨
        (btreeRemoveB HistoryEntry.cmp o e.history).2 ≠ [] ∧
          mapLookup m1 a = some { e with history :=
            (btreeRemoveB HistoryEntry.cmp o e.history).2 }) := by
  simp only [purgeHistStep, Option.bind_eq_bind, Option.bind_eq_some] at h
  obtain ⟨e, he, h⟩ := h
  by_cases hr : (btreeRemoveB HistoryEntry.cmp o e.history).1 = true
  · rw [if_pos hr] at h
    cases h
    refine ⟨e, he, hr, ?_⟩
    by_cases hemp : (btreeRemoveB HistoryEntry.cmp o e.history).2.isEmpty
    · rw [if_pos hemp]
      exact Or.inl ⟨List.isEmpty_iff.1 hemp, mapLookup_erase_self m a⟩
    · rw [if_neg hemp]
      refine Or.inr ⟨fun hh => hemp (by simp [hh]), ?_⟩
      rw [mapLookup_modify_self, he]
      rfl
  · rw [if_neg hr] at h
    cases h

theorem purgeHist_fold_lookup {o : HistoryEntry} :
    ∀ {l : List Nat} {m m2 : List (Nat × ScriptEntry)},
      l.Nodup →
      List.foldlM (purgeHistStep o) m l = some m2 →
      (∀ sh, sh ∉ l → mapLookup m2 sh = mapLookup m sh) ∧
      (∀ sh ∈ l, ∃ e, mapLookup m sh = some e ∧
        (btreeRemoveB HistoryEntry.cmp o e.history).1 = true ∧
        ((btreeRemoveB HistoryEntry.cmp o e.history).2 = [] ∧
            mapLookup m2 sh = none ∨
          (btreeRemoveB HistoryEntry.cmp o e.history).2 ≠ [] ∧
            mapLookup m2 sh = some { e with history :=
              (btreeRemoveB HistoryEntry.cmp o e.history).2 })) := by
  intro l
  induction l with
  | nil =>
    intro m m2 _ h
    simp only [List.foldlM_nil] at h
    cases h
    exact ⟨fun sh _ => rfl, by simp⟩
  | cons a as ih =>
    intro m m2 hnd h
    simp only [List.foldlM_cons, Option.bind_eq_bind, Option.bind_eq_some] at h
    obtain ⟨m1, h1, h2⟩ := h
    obtain ⟨ha_not_mem, hnd_as⟩ := List.nodup_cons.1 hnd
    obtain ⟨ihframe, ihmem⟩ := ih hnd_as h2
    constructor
    · intro sh hsh
      simp only [List.mem_cons, not_or] at hsh
      rw [ihframe sh hsh.2, purgeHistStep_frame h1 hsh.1]
    · intro sh hsh
      rcases List.mem_cons.1 hsh with rfl | hsh
      · obtain ⟨e, he, hr, hcase⟩ := purgeHistStep_self h1
        refine ⟨e, he, hr, ?_⟩
        rcases hcase with ⟨hemp, hm1⟩ | ⟨hne, hm1⟩
        · exact Or.inl ⟨hemp, by rw [ihframe sh ha_not_mem, hm1]⟩
        · exact Or.inr ⟨hne, by rw [ihframe sh ha_not_mem, hm1]⟩
      · obtain ⟨e, he, hr, hcase⟩ := ihmem sh hsh
        have hne : sh ≠ a := fun hh => ha_not_mem (hh ▸ hsh)
        exact ⟨e, by rw [← purgeHistStep_frame h1 hne, he], hr, hcase⟩

/-! ### Claim C7 -/

/-- C7: for every tip height `H` and confirmation count `c` (an `i32`),
`TxStatus::new` returns `Conflicted` for negative `c`, `Unconfirmed` for
zero, and `Confirmed(H - c + 1)` (unsigned 32-bit arithmetic) for positive
`c`; in the positive case the returned height `h` satisfies
`H - h + 1 == c` in unsigned 32-bit arithmetic. -/
theorem C7_classify_round_trip (H : Nat) (c : Int) (hH : H < 2 ^ 32)
    (hlo : -(2 ^ 31) ≤ c) (hhi : c < 2 ^ 31) :
    (c < 0 → TxStatus.new c H = TxStatus.conflicted) ∧
    (c = 0 → TxStatus.new c H = TxStatus.unconfirmed) ∧
    (0 < c → TxStatus.new c H = TxStatus.confirmed (u32add (u32sub H c.toNat) 1) ∧
      ∀ h, TxStatus.new c H = TxStatus.confirmed h →
        u32add (u32sub H h) 1 = c.toNat) := by
  refine ⟨?_, ?_, ?_⟩
  · intro hneg
    rw [TxStatus.new, if_neg (by omega), if_neg (by omega)]
  · intro h0
    rw [TxStatus.new, if_neg (by omega), if_pos h0]
  · intro hpos
    have hdef : TxStatus.new c H = TxStatus.confirmed (u32add (u32sub H c.toNat) 1) := by
      rw [TxStatus.new, if_pos hpos]
    refine ⟨hdef, ?_⟩
    intro h hh
    rw [hdef] at hh
    injection hh with hh
    subst hh
    have hc1 : 1 ≤ c.toNat := by omega
    have hc2 : c.toNat < 2 ^ 31 := by omega
    simp only [u32add, u32sub]
    omega

/-- Witness for C7 at tip height 100 and 5 confirmations. -/
theorem C7_classify_round_trip_witness :
    TxStatus.new 5 100 = TxStatus.confirmed (u32add (u32sub 100 (5 : Int).toNat) 1) ∧
    ∀ h, TxStatus.new 5 100 = TxStatus.confirmed h →
      u32add (u32sub 100 h) 1 = (5 : Int).toNat :=
  (C7_classify_round_trip 100 5 (by norm_num) (by norm_num) (by norm_num)).2.2
    (by norm_num)

/-! ### Claim C10 -/

/-- C10: re-applying a store mutation with identical inputs is a no-op:
`upsert_tx` on a transaction already stored with that exact status returns
`false` and leaves the entire store unchanged, and
`index_tx_output_funding` for an already-registered `(txid, vout)` returns
`false` and leaves the entire store unchanged. -/
theorem C10_reapply_noop (s : MemoryStore) (txid vout : Nat)
    (status : TxStatus) (fi : FundingInfo) :
    (∀ e, mapLookup s.transactions txid = some e → e.status = status →
      s.upsert_tx txid status = some (false, s)) ∧
    (∀ e fi0, mapLookup s.transactions txid = some e →
      mapLookup e.funding vout = some fi0 →
      s.index_tx_output_funding txid vout fi = some (false, s)) := by
  constructor
  · intro e he hst
    rw [MemoryStore.upsert_tx, he]
    simp [hst]
  · intro e fi0 he hf
    rw [MemoryStore.index_tx_output_funding, he]
    simp [hf]

/-- Witness for C10 on the populated store `wStore`. -/
theorem C10_reapply_noop_witness :
    wStore.upsert_tx 7 TxStatus.unconfirmed = some (false, wStore) ∧
    wStore.index_tx_output_funding 7 0 { scripthash := 9, value := 1 } =
      some (false, wStore) :=
  ⟨(C10_reapply_noop wStore 7 0 TxStatus.unconfirmed
      { scripthash := 9, value := 1 }).1 wTxEntry (by decide) (by decide),
   (C10_reapply_noop wStore 7 0 TxStatus.unconfirmed
      { scripthash := 9, value := 1 }).2 wTxEntry { scripthash := 1, value := 5000 }
      (by decide) (by decide)⟩

/-! ### Claim C2 -/

/-- C2 counterexample: under the `HistoryEntry` order of src/addrman.rs
(status only, no txid tie-break), inserting two entries with distinct txids
but equal status into a history set keeps only the first: the second is not
retained, refuting the claimed txid tie-break and retention for that
implementation. -/
theorem C2_counterexample :
    buildHistoryAddrman
        [{ txid := 0, status := TxStatus.unconfirmed },
         { txid := 1, status := TxStatus.unconfirmed }] =
      [{ txid := 0, status := TxStatus.unconfirmed }] ∧
    ({ txid := 1, status := TxStatus.unconfirmed } : HistoryEntry) ∉
      buildHistoryAddrman
        [{ txid := 0, status := TxStatus.unconfirmed },
         { txid := 1, status := TxStatus.unconfirmed }] ∧
    HistoryEntry.addrman_cmp { txid := 0, status := TxStatus.unconfirmed }
        { txid := 1, status := TxStatus.unconfirmed } = Ordering.eq := by
  refine ⟨by decide, by decide, by decide⟩

/-- C2 (amended to the `HistoryEntry` order of src/store.rs): that order is
lexicographic on (status, txid) with Conflicted < Unconfirmed <
Confirmed(height) and Confirmed by ascending height; every set of entries
inserted in any order iterates in exactly this sorted order (insertion
order never matters), every inserted entry is retained, and in particular
two entries with distinct txids and equal status are both retained. -/
theorem C2_history_order_store :
    (∀ a b : HistoryEntry, HistoryEntry.cmp a b = Ordering.lt ↔ specHistLt a b) ∧
    (∀ a b : HistoryEntry, HistoryEntry.cmp a b = Ordering.eq ↔ a = b) ∧
    (∀ l : List HistoryEntry, HSorted (buildHistory l)) ∧
    (∀ (l : List HistoryEntry) (a : HistoryEntry), a ∈ buildHistory l ↔ a ∈ l) ∧
    (∀ l l2 : List HistoryEntry, l.Perm l2 → buildHistory l = buildHistory l2) ∧
    (∀ a b : HistoryEntry, a.txid ≠ b.txid →
      a ∈ buildHistory [a, b] ∧ b ∈ buildHistory [a, b]) := by
  refine ⟨hist_cmp_lt_iff, hist_cmp_eq_iff, HSorted_buildHistory,
    mem_buildHistory, fun l l2 h => buildHistory_perm_eq h, ?_⟩
  intro a b _
  constructor
  · rw [mem_buildHistory]
    simp
  · rw [mem_buildHistory]
    simp

/-- Witness for C2 on the spec's four-status example set (with the two
confirmed heights 5 and 10) in two insertion orders, and on two
unconfirmed entries with distinct txids. -/
theorem C2_history_order_store_witness :
    buildHistory
        [{ txid := 3, status := TxStatus.unconfirmed },
         { txid := 2, status := TxStatus.confirmed 10 },
         { txid := 1, status := TxStatus.confirmed 5 }] =
      buildHistory
        [{ txid := 1, status := TxStatus.confirmed 5 },
         { txid := 3, status := TxStatus.unconfirmed },
         { txid := 2, status := TxStatus.confirmed 10 }] ∧
    ({ txid := 0, status := TxStatus.unconfirmed } : HistoryEntry) ∈
      buildHistory
        [{ txid := 0, status := TxStatus.unconfirmed },
         { txid := 1, status := TxStatus.unconfirmed }] ∧
    ({ txid := 1, status := TxStatus.unconfirmed } : HistoryEntry) ∈
      buildHistory
        [{ txid := 0, status := TxStatus.unconfirmed },
         { txid := 1, status := TxStatus.unconfirmed }] :=
  ⟨(C2_history_order_store.2.2.2.2.1 _ _ (by decide)),
   (C2_history_order_store.2.2.2.2.2 { txid := 0, status := TxStatus.unconfirmed }
      { txid := 1, status := TxStatus.unconfirmed } (by decide)).1,
   (C2_history_order_store.2.2.2.2.2 { txid := 0, status := TxStatus.unconfirmed }
      { txid := 1, status := TxStatus.unconfirmed } (by decide)).2⟩

/-! ### Claim C8 -/

/-- C8 counterexample: `AddrManager::list_unspent` on an unknown
fingerprint does not return an empty result — it returns the
"unknown scripthash" error, refuting "every read-side query ... never
returns an error". -/
theorem C8_counterexample :
    AddrManager.list_unspent AIndex.empty
      { block_count := 0, block_hash := fun _ => 0, best_block_hash := 0,
        listunspent := fun _ _ => [] } 1 0 1 =
      Except.error "unknown scripthash" ∧
    AddrManager.get_balance AIndex.empty
      { block_count := 0, block_hash := fun _ => 0, best_block_hash := 0,
        listunspent := fun _ _ => [] } 1 1 =
      Except.error "unknown scripthash" := by
  constructor
  · rfl
  · rfl

/-- C8 (amended): for unknown fingerprints/txids the pure lookups
(`get_history`, `get_script_info`, `get_tx_count`, `get_tx_entry` on the
store, `AddrManager::get_history` on the index) return an empty or absent
result and no error, but `AddrManager::list_unspent` and
`AddrManager::get_balance` return the "unknown scripthash" error for an
unknown fingerprint. -/
theorem C8_not_found (s : MemoryStore) (idx : AIndex) (rpc : UtxoRpc)
    (sh t min_conf fuel : Nat) :
    (mapLookup s.scripthashes sh = none →
      s.get_history sh = none ∧ s.get_script_info sh = none ∧
      s.get_tx_count sh = 0 ∧ s.has_history sh = false) ∧
    (mapLookup s.transactions t = none → s.get_tx_entry t = none) ∧
    (mapLookup idx.scripthashes sh = none →
      AddrManager.get_history idx sh = Except.ok [] ∧
      AddrManager.list_unspent idx rpc sh min_conf fuel =
        Except.error "unknown scripthash" ∧
      AddrManager.get_balance idx rpc sh fuel =
        Except.error "unknown scripthash") := by
  refine ⟨?_, ?_, ?_⟩
  · intro h
    refine ⟨?_, ?_, ?_, ?_⟩
    · rw [MemoryStore.get_history, h]; rfl
    · rw [MemoryStore.get_script_info, h]; rfl
    · rw [MemoryStore.get_tx_count, h]
    · rw [MemoryStore.has_history, h]; rfl
  · intro h
    rw [MemoryStore.get_tx_entry, h]
  · intro h
    have haddr : idx.get_address sh = none := by
      rw [AIndex.get_address, h]; rfl
    have hhist : idx.get_history sh = none := by
      rw [AIndex.get_history, h]; rfl
    have hlu : AddrManager.list_unspent idx rpc sh min_conf fuel =
        Except.error "unknown scripthash" := by
      cases fuel with
      | zero => rw [AddrManager.list_unspent, haddr]
      | succ n => rw [AddrManager.list_unspent, haddr]
    refine ⟨?_, hlu, ?_⟩
    · rw [AddrManager.get_history, hhist]
      rfl
    · have hlu0 : AddrManager.list_unspent idx rpc sh 0 fuel =
          Except.error "unknown scripthash" := by
        cases fuel with
        | zero => rw [AddrManager.list_unspent, haddr]
        | succ n => rw [AddrManager.list_unspent, haddr]
      rw [AddrManager.get_balance, hlu0]

/-- Witness for C8 on the empty store and empty index. -/
theorem C8_not_found_witness :
    MemoryStore.empty.get_history 1 = none ∧
    MemoryStore.empty.get_script_info 1 = none ∧
    MemoryStore.empty.get_tx_count 1 = 0 ∧
    MemoryStore.empty.has_history 1 = false :=
  (C8_not_found MemoryStore.empty AIndex.empty
    { block_count := 0, block_hash := fun _ => 0, best_block_hash := 0,
      listunspent := fun _ _ => [] } 1 1 0 0).1 rfl

/-! ### Claim C9 -/

/-- C9 (code bug): with 26 viable transactions, an initial page size of 25,
a start-height floor of 0 and a stable tip, the first page is full
(25 rows, not fewer) and its oldest entry is unconfirmed, so by the claim
the driver must fetch a further page; the code instead stops after exactly
this one page (its `while` condition is `exhausted` rather than its
negation), so the feed's oldest transaction is never handed to the chunk
handler. -/
theorem C9_pagination_stops_on_full_page :
    load_transactions_since syncOracle26 25 0 9 = some (1, feed26.drop 1) ∧
    (syncOracle26.listtransactions 25 0).length = 25 ∧
    ¬ (syncOracle26.listtransactions 25 0).length < 25 ∧
    ((feed26.drop 1).getLast?).map (fun l => decide (0 < l.confirmations)) =
      some false ∧
    ({ txid := 0, address := 0, confirmations := 0 } : Ltx) ∈ feed26 ∧
    ({ txid := 0, address := 0, confirmations := 0 } : Ltx) ∉ feed26.drop 1 := by
  refine ⟨by decide, by decide, by decide, by decide, by decide, by decide⟩

/-! ### Operation characterizations -/

theorem index_history_entry_spec {s : MemoryStore} {scripthash : Nat}
    {txhist : HistoryEntry} {p : Bool × MemoryStore}
    (h : s.index_history_entry scripthash txhist = some p) :
    ∃ e, mapLookup s.scripthashes scripthash = some e ∧
      p.2.transactions = s.transactions ∧
      p.2.mempool = s.mempool ∧
      p.2.txo_spends = s.txo_spends ∧
      p.2.scripthashes = mapModify s.scripthashes scripthash
        (fun e2 => { e2 with history := (btreeInsertB HistoryEntry.cmp txhist e.history).2 }) ∧
      mapLookup p.2.scripthashes scripthash =
        some { e with history := (btreeInsertB HistoryEntry.cmp txhist e.history).2 } ∧
      ∀ sh2, sh2 ≠ scripthash →
        mapLookup p.2.scripthashes sh2 = mapLookup s.scripthashes sh2 := by
  rcases hl : mapLookup s.scripthashes scripthash with - | e
  · rw [MemoryStore.index_history_entry, hl] at h
    cases h
  · rw [MemoryStore.index_history_entry, hl] at h
    cases h
    refine ⟨e, rfl, rfl, rfl, rfl, rfl, ?_, ?_⟩
    · show mapLookup (mapModify s.scripthashes scripthash _) scripthash = _
      rw [mapLookup_modify_self, hl]
      rfl
    · intro sh2 hne
      exact mapLookup_modify_ne _ hne

theorem update_tx_status_spec {s : MemoryStore} {txid : Nat}
    {old_status new_status : TxStatus} {s2 : MemoryStore}
    (h : s.update_tx_status txid old_status new_status = some s2) :
    ∃ te m2, mapLookup s.transactions txid = some te ∧
      List.foldlM
        (updateHistStep (HistoryEntry.new txid old_status)
          (HistoryEntry.new txid new_status)) s.scripthashes te.scripthashes =
        some m2 ∧
      s2.transactions = s.transactions ∧
      s2.scripthashes = m2 ∧
      s2.txo_spends = s.txo_spends ∧
      ((old_status = TxStatus.unconfirmed ∧
          (mapLookup s.mempool txid).isSome = true ∧
          s2.mempool = mapErase s.mempool txid) ∨
        (old_status ≠ TxStatus.unconfirmed ∧ new_status = TxStatus.unconfirmed ∧
          mapLookup s.mempool txid = none ∧
          s2.mempool = mapInsert s.mempool txid none) ∨
        (old_status ≠ TxStatus.unconfirmed ∧ new_status ≠ TxStatus.unconfirmed ∧
          s2.mempool = s.mempool)) := by
  simp only [MemoryStore.update_tx_status, Option.bind_eq_bind,
    Option.bind_eq_some] at h
  obtain ⟨te, hte, h⟩ := h
  obtain ⟨m2, hm2, h⟩ := h
  refine ⟨te, m2, hte, hm2, ?_⟩
  cases old_status <;> cases new_status <;>
    simp only [] at h
  case unconfirmed.unconfirmed =>
    by_cases hmem : (mapLookup s.mempool txid).isSome = true
    · rw [if_pos hmem] at h
      cases h
      exact ⟨rfl, rfl, rfl, Or.inl ⟨rfl, hmem, rfl⟩⟩
    · rw [if_neg hmem] at h
      cases h
  case unconfirmed.conflicted =>
    by_cases hmem : (mapLookup s.mempool txid).isSome = true
    · rw [if_pos hmem] at h
      cases h
      exact ⟨rfl, rfl, rfl, Or.inl ⟨rfl, hmem, rfl⟩⟩
    · rw [if_neg hmem] at h
      cases h
  case unconfirmed.confirmed height =>
    by_cases hmem : (mapLookup s.mempool txid).isSome = true
    · rw [if_pos hmem] at h
      cases h
      exact ⟨rfl, rfl, rfl, Or.inl ⟨rfl, hmem, rfl⟩⟩
    · rw [if_neg hmem] at h
      cases h
  case conflicted.unconfirmed =>
    by_cases hmem : (mapLookup s.mempool txid).isSome = true
    · rw [if_pos hmem] at h
      cases h
    · rw [if_neg hmem] at h
      cases h
      refine ⟨rfl, rfl, rfl, Or.inr (Or.inl ⟨by simp, rfl, ?_, rfl⟩)⟩
      simpa using hmem
  case conflicted.conflicted =>
    cases h
    exact ⟨rfl, rfl, rfl, Or.inr (Or.inr ⟨by simp, by simp, rfl⟩)⟩
  case conflicted.confirmed height =>
    cases h
    exact ⟨rfl, rfl, rfl, Or.inr (Or.inr ⟨by simp, by simp, rfl⟩)⟩
  case confirmed.unconfirmed height =>
    by_cases hmem : (mapLookup s.mempool txid).isSome = true
    · rw [if_pos hmem] at h
      cases h
    · rw [if_neg hmem] at h
      cases h
      refine ⟨rfl, rfl, rfl, Or.inr (Or.inl ⟨by simp, rfl, ?_, rfl⟩)⟩
      simpa using hmem
  case confirmed.conflicted height =>
    cases h
    exact ⟨rfl, rfl, rfl, Or.inr (Or.inr ⟨by simp, by simp, rfl⟩)⟩
  case confirmed.confirmed h1 h2 =>
    cases h
    exact ⟨rfl, rfl, rfl, Or.inr (Or.inr ⟨by simp, by simp, rfl⟩)⟩

theorem upsert_tx_spec {s : MemoryStore} {txid : Nat} {status : TxStatus}
    {p : Bool × MemoryStore} (h : s.upsert_tx txid status = some p) :
    (∃ e, mapLookup s.transactions txid = some e ∧ e.status = status ∧
      p = (false, s)) ∨
    (∃ e s2, mapLookup s.transactions txid = some e ∧ e.status ≠ status ∧
      MemoryStore.update_tx_status
        { scripthashes := s.scripthashes,
          transactions := mapModify s.transactions txid
            (fun e2 => { e2 with status := status }),
          mempool := s.mempool, txo_spends := s.txo_spends }
        txid e.status status = some s2 ∧
      p = (true, s2)) ∨
    (mapLookup s.transactions txid = none ∧ status = TxStatus.unconfirmed ∧
      mapLookup s.mempool txid = none ∧
      p = (true,
        { scripthashes := s.scripthashes,
          transactions := mapInsert s.transactions txid (TxEntry.new status),
          mempool := mapInsert s.mempool txid none,
          txo_spends := s.txo_spends })) ∨
    (mapLookup s.transactions txid = none ∧ status ≠ TxStatus.unconfirmed ∧
      p = (true,
        { scripthashes := s.scripthashes,
          transactions := mapInsert s.transactions txid (TxEntry.new status),
          mempool := s.mempool, txo_spends := s.txo_spends })) := by
  rcases hl : mapLookup s.transactions txid with - | e
  · cases status with
    | unconfirmed =>
      simp only [MemoryStore.upsert_tx, hl] at h
      by_cases hmem : (mapLookup s.mempool txid).isSome = true
      · rw [if_pos hmem] at h
        cases h
      · rw [if_neg hmem] at h
        cases h
        refine Or.inr (Or.inr (Or.inl ⟨rfl, rfl, ?_, rfl⟩))
        simpa using hmem
    | conflicted =>
      simp only [MemoryStore.upsert_tx, hl] at h
      cases h
      exact Or.inr (Or.inr (Or.inr ⟨rfl, by simp, rfl⟩))
    | confirmed height =>
      simp only [MemoryStore.upsert_tx, hl] at h
      cases h
      exact Or.inr (Or.inr (Or.inr ⟨rfl, by simp, rfl⟩))
  · simp only [MemoryStore.upsert_tx, hl] at h
    by_cases hst : e.status = status
    · rw [if_pos hst] at h
      cases h
      exact Or.inl ⟨e, rfl, hst, rfl⟩
    · rw [if_neg hst] at h
      rcases hupd : MemoryStore.update_tx_status
          { scripthashes := s.scripthashes,
            transactions := mapModify s.transactions txid
              (fun e2 => { e2 with status := status }),
            mempool := s.mempool, txo_spends := s.txo_spends }
          txid e.status status with - | s2
      · rw [hupd] at h
        cases h
      · rw [hupd] at h
        cases h
        exact Or.inr (Or.inl ⟨e, s2, rfl, hst, hupd, rfl⟩)

theorem purge_tx_spec {s : MemoryStore} {txid : Nat} {p : Bool × MemoryStore}
    (h : s.purge_tx txid = some p) :
    (mapLookup s.transactions txid = none ∧ p = (false, s)) ∨
    (∃ old_entry m2 sp2, mapLookup s.transactions txid = some old_entry ∧
      (old_entry.status.is_unconfirmed = true →
        (mapLookup s.mempool txid).isSome = true) ∧
      List.foldlM (purgeHistStep (HistoryEntry.new txid old_entry.status))
        s.scripthashes old_entry.scripthashes = some m2 ∧
      List.foldlM (purgeSpendStep txid) s.txo_spends old_entry.spending =
        some sp2 ∧
      p = (true,
        { scripthashes := m2,
          transactions := mapErase s.transactions txid,
          mempool := if old_entry.status.is_unconfirmed then
            mapErase s.mempool txid else s.mempool,
          txo_spends := sp2 })) := by
  rcases hl : mapLookup s.transactions txid with - | old_entry
  · simp only [MemoryStore.purge_tx, hl] at h
    cases h
    exact Or.inl ⟨rfl, rfl⟩
  · simp only [MemoryStore.purge_tx, hl, Option.bind_eq_bind,
      Option.bind_eq_some] at h
    by_cases hunc : old_entry.status.is_unconfirmed = true
    · rw [if_pos hunc] at h
      by_cases hmem : (mapLookup s.mempool txid).isSome = true
      · rw [if_pos hmem] at h
        simp only [Option.some_bind, Option.bind_eq_some] at h
        obtain ⟨m2, hm2, h⟩ := h
        obtain ⟨sp2, hsp2, h⟩ := h
        cases h
        refine Or.inr ⟨old_entry, m2, sp2, rfl, fun _ => hmem, hm2, hsp2, ?_⟩
        rw [if_pos hunc]
      · rw [if_neg hmem] at h
        simp at h
    · rw [if_neg hunc] at h
      simp only [Option.some_bind, Option.bind_eq_some] at h
      obtain ⟨m2, hm2, h⟩ := h
      obtain ⟨sp2, hsp2, h⟩ := h
      cases h
      refine Or.inr ⟨old_entry, m2, sp2, rfl, fun hcontra => absurd hcontra hunc,
        hm2, hsp2, ?_⟩
      rw [if_neg hunc]

theorem indexHistStep_spec {txh : HistoryEntry} {st st2 : MemoryStore} {sh : Nat}
    (h : indexHistStep txh st sh = some st2) :
    ∃ e, mapLookup st.scripthashes sh = some e ∧
      st2.transactions = st.transactions ∧
      st2.mempool = st.mempool ∧
      st2.txo_spends = st.txo_spends ∧
      st2.scripthashes = mapModify st.scripthashes sh
        (fun e2 => { e2 with history := (btreeInsertB HistoryEntry.cmp txh e.history).2 }) ∧
      mapLookup st2.scripthashes sh =
        some { e with history := (btreeInsertB HistoryEntry.cmp txh e.history).2 } ∧
      ∀ sh2, sh2 ≠ sh →
        mapLookup st2.scripthashes sh2 = mapLookup st.scripthashes sh2 := by
  simp only [indexHistStep, Option.bind_eq_bind, Option.bind_eq_some] at h
  obtain ⟨r, hr, h⟩ := h
  cases h
  obtain ⟨e, he, h1, h2, h3, h4, h5, h6⟩ := index_history_entry_spec hr
  exact ⟨e, he, h1, h2, h3, h4, h5, h6⟩

theorem index_tx_output_funding_spec {s : MemoryStore} {txid vout : Nat}
    {fi : FundingInfo} {p : Bool × MemoryStore}
    (h : s.index_tx_output_funding txid vout fi = some p) :
    ∃ tx_entry, mapLookup s.transactions txid = some tx_entry ∧
      ((∃ fi0, mapLookup tx_entry.funding vout = some fi0 ∧ p = (false, s)) ∨
        (mapLookup tx_entry.funding vout = none ∧
          ∃ r, MemoryStore.index_history_entry
              { scripthashes := s.scripthashes,
                transactions := mapModify s.transactions txid
                  (fun e => { e with funding := mapInsert e.funding vout fi }),
                mempool := s.mempool, txo_spends := s.txo_spends }
              fi.scripthash (HistoryEntry.new txid tx_entry.status) = some r ∧
            p = (true, r.2))) := by
  simp only [MemoryStore.index_tx_output_funding, Option.bind_eq_bind,
    Option.bind_eq_some] at h
  obtain ⟨tx_entry, hte, h⟩ := h
  refine ⟨tx_entry, hte, ?_⟩
  rcases hf : mapLookup tx_entry.funding vout with - | fi0
  · rw [hf] at h
    simp only [Option.bind_eq_some] at h
    obtain ⟨r, hr, h⟩ := h
    cases h
    exact Or.inr ⟨rfl, r, hr, rfl⟩
  · rw [hf] at h
    cases h
    exact Or.inl ⟨fi0, rfl, rfl⟩

theorem index_tx_inputs_spending_spec {s : MemoryStore} {txid : Nat}
    {spending : List (Nat × SpendingInfo)} {ow : Bool} {s2 : MemoryStore}
    (h : s.index_tx_inputs_spending txid spending ow = some s2) :
    ∃ tx_entry, mapLookup s.transactions txid = some tx_entry ∧
      (ow || tx_entry.spending.isEmpty) = true ∧
      List.foldlM
        (indexHistStep (HistoryEntry.new txid
          ({ tx_entry with spending := spending } : TxEntry).status))
        { scripthashes := s.scripthashes,
          transactions := mapModify s.transactions txid
            (fun _ => { tx_entry with spending := spending }),
          mempool := s.mempool, txo_spends := s.txo_spends }
        ({ tx_entry with spending := spending } : TxEntry).scripthashes =
        some s2 := by
  simp only [MemoryStore.index_tx_inputs_spending, Option.bind_eq_bind,
    Option.bind_eq_some] at h
  obtain ⟨tx_entry, hte, h⟩ := h
  by_cases how : (ow || tx_entry.spending.isEmpty) = true
  · rw [if_pos how] at h
    exact ⟨tx_entry, hte, how, h⟩
  · rw [if_neg how] at h
    cases h

theorem updateHistStep_no_new_empty {o n : HistoryEntry}
    {b b2 : List (Nat × ScriptEntry)} {a : Nat}
    (h : updateHistStep o n b a = some b2) (sh : Nat) (e2 : ScriptEntry)
    (hlk : mapLookup b2 sh = some e2) (hemp : e2.history = []) :
    ∃ e, mapLookup b sh = some e ∧ e.history = [] := by
  by_cases hsh : sh = a
  · subst hsh
    obtain ⟨e, he, -, -, hlk2⟩ := updateHistStep_self h
    rw [hlk] at hlk2
    have he2 := Option.some_inj.1 hlk2
    rw [he2] at hemp
    exact absurd hemp (btreeInsertB_snd_ne_nil _ _ _)
  · rw [updateHistStep_frame h hsh] at hlk
    exact ⟨e2, hlk, hemp⟩

theorem purgeHistStep_no_new_empty {o : HistoryEntry}
    {b b2 : List (Nat × ScriptEntry)} {a : Nat}
    (h : purgeHistStep o b a = some b2) (sh : Nat) (e2 : ScriptEntry)
    (hlk : mapLookup b2 sh = some e2) (hemp : e2.history = []) :
    ∃ e, mapLookup b sh = some e ∧ e.history = [] := by
  by_cases hsh : sh = a
  · subst hsh
    obtain ⟨e, he, -, hcase⟩ := purgeHistStep_self h
    rcases hcase with ⟨-, hnone⟩ | ⟨hne, hlk2⟩
    · rw [hlk] at hnone
      cases hnone
    · rw [hlk] at hlk2
      have he2 := Option.some_inj.1 hlk2
      rw [he2] at hemp
      exact absurd hemp hne
  · rw [purgeHistStep_frame h hsh] at hlk
    exact ⟨e2, hlk, hemp⟩

theorem indexHistStep_no_new_empty {txh : HistoryEntry} {st st2 : MemoryStore}
    {a : Nat} (h : indexHistStep txh st a = some st2) (sh : Nat)
    (e2 : ScriptEntry) (hlk : mapLookup st2.scripthashes sh = some e2)
    (hemp : e2.history = []) :
    ∃ e, mapLookup st.scripthashes sh = some e ∧ e.history = [] := by
  obtain ⟨e, he, -, -, -, -, hself, hframe⟩ := indexHistStep_spec h
  by_cases hsh : sh = a
  · subst hsh
    rw [hlk] at hself
    have he2 := Option.some_inj.1 hself
    rw [he2] at hemp
    exact absurd hemp (btreeInsertB_snd_ne_nil _ _ _)
  · rw [hframe sh hsh] at hlk
    exact ⟨e2, hlk, hemp⟩

/-! ### Claim C6 -/

/-- C6 counterexample: from the empty store, the single (successful)
operation `index_scripthash(1, origin 2, address 3)` reaches a state where
a `ScriptEntry` for fingerprint 1 is present with an empty history set
(and `has_history` reports true), refuting "a ScriptEntry is present for a
fingerprint if and only if that entry's history set is non-empty: no
operation (including index_scripthash) leaves a ScriptEntry with an empty
history set in the map". -/
theorem C6_counterexample :
    runOps [Op.index_scripthash 1 2 3] = some emptyHistoryStore ∧
    mapLookup emptyHistoryStore.scripthashes 1 =
      some { address := 3, origin := 2, history := [] } ∧
    emptyHistoryStore.has_history 1 = true ∧
    emptyHistoryStore.get_history 1 = some [] := by
  refine ⟨by decide, by decide, by decide, by decide⟩

/-- C6 (amended): an entry's history set, once non-empty, is never seen
empty again — every operation either keeps a script entry's history
non-empty or deletes the entry (in particular purge_tx deletes entries it
empties immediately); the only way a present entry can have an empty
history set is that `index_scripthash` created it that way (so "present
iff non-empty" fails only on that creation path). -/
theorem C6_emptied_entries_deleted (s : MemoryStore) (op : Op)
    (s2 : MemoryStore) (h : applyOp s op = some s2) :
    ∀ sh e2, mapLookup s2.scripthashes sh = some e2 → e2.history = [] →
      (∃ e, mapLookup s.scripthashes sh = some e ∧ e.history = []) ∨
      ∃ o a, op = Op.index_scripthash sh o a := by
  cases op with
  | index_scripthash sh0 o a =>
    simp only [applyOp, Option.map_eq_some'] at h
    obtain ⟨p, hp, hps⟩ := h
    subst hps
    intro sh e2 hlk hemp
    rcases hl : mapLookup s.scripthashes sh0 with - | curr
    · simp only [MemoryStore.index_scripthash, hl] at hp
      cases hp
      by_cases hsh : sh = sh0
      · subst hsh
        exact Or.inr ⟨o, a, rfl⟩
      · rw [mapLookup_insert_ne _ hsh] at hlk
        exact Or.inl ⟨e2, hlk, hemp⟩
    · simp only [MemoryStore.index_scripthash, hl] at hp
      by_cases horig : curr.origin = o
      · rw [if_pos horig] at hp
        cases hp
        exact Or.inl ⟨e2, hlk, hemp⟩
      · rw [if_neg horig] at hp
        cases hp
  | upsert_tx txid status =>
    simp only [applyOp, Option.map_eq_some'] at h
    obtain ⟨p, hp, hps⟩ := h
    subst hps
    intro sh e2 hlk hemp
    rcases upsert_tx_spec hp with ⟨e, -, -, rfl⟩ | ⟨e, s3, -, -, hupd, rfl⟩ |
      ⟨-, -, -, rfl⟩ | ⟨-, -, rfl⟩
    · exact Or.inl ⟨e2, hlk, hemp⟩
    · obtain ⟨te, m2, -, hfold, -, hscr, -, -⟩ := update_tx_status_spec hupd
      rw [hscr] at hlk
      refine Or.inl ?_
      exact foldlM_option_preserve
        (P := fun m => ∀ sh e2, mapLookup m sh = some e2 → e2.history = [] →
          ∃ e, mapLookup s.scripthashes sh = some e ∧ e.history = [])
        (Q := fun _ => True)
        (fun b a b2 _ hPb hstep sh e2 hlk hemp =>
          hPb sh _ ((updateHistStep_no_new_empty hstep sh e2 hlk hemp).choose_spec.1)
            (updateHistStep_no_new_empty hstep sh e2 hlk hemp).choose_spec.2)
        (fun _ _ => trivial)
        (fun sh e2 hlk hemp => ⟨e2, hlk, hemp⟩) hfold sh e2 hlk hemp
    · exact Or.inl ⟨e2, hlk, hemp⟩
    · exact Or.inl ⟨e2, hlk, hemp⟩
  | index_tx_output_funding txid vout fi =>
    simp only [applyOp, Option.map_eq_some'] at h
    obtain ⟨p, hp, hps⟩ := h
    subst hps
    intro sh e2 hlk hemp
    obtain ⟨te, hte, hcase⟩ := index_tx_output_funding_spec hp
    rcases hcase with ⟨fi0, -, rfl⟩ | ⟨-, r, hr, rfl⟩
    · exact Or.inl ⟨e2, hlk, hemp⟩
    · obtain ⟨e, he, -, -, -, -, hself, hframe⟩ := index_history_entry_spec hr
      by_cases hsh : sh = fi.scripthash
      · subst hsh
        rw [hlk] at hself
        have he2 := Option.some_inj.1 hself
        rw [he2] at hemp
        exact absurd hemp (btreeInsertB_snd_ne_nil _ _ _)
      · rw [hframe sh hsh] at hlk
        exact Or.inl ⟨e2, hlk, hemp⟩
  | index_tx_inputs_spending txid spending ow =>
    simp only [applyOp] at h
    intro sh e2 hlk hemp
    obtain ⟨te, -, -, hfold⟩ := index_tx_inputs_spending_spec h
    refine Or.inl ?_
    exact foldlM_option_preserve
      (P := fun st => ∀ sh e2, mapLookup st.scripthashes sh = some e2 →
        e2.history = [] →
        ∃ e, mapLookup s.scripthashes sh = some e ∧ e.history = [])
      (Q := fun _ => True)
      (fun b a b2 _ hPb hstep sh e2 hlk hemp =>
        hPb sh _ ((indexHistStep_no_new_empty hstep sh e2 hlk hemp).choose_spec.1)
          (indexHistStep_no_new_empty hstep sh e2 hlk hemp).choose_spec.2)
      (fun _ _ => trivial)
      (fun sh e2 hlk hemp => ⟨e2, hlk, hemp⟩) hfold sh e2 hlk hemp
  | index_txo_spend prevout inp =>
    simp only [applyOp] at h
    cases h
    intro sh e2 hlk hemp
    exact Or.inl ⟨e2, hlk, hemp⟩
  | purge_tx txid =>
    simp only [applyOp, Option.map_eq_some'] at h
    obtain ⟨p, hp, hps⟩ := h
    subst hps
    intro sh e2 hlk hemp
    rcases purge_tx_spec hp with ⟨-, rfl⟩ | ⟨oe, m2, sp2, -, -, hfold, -, rfl⟩
    · exact Or.inl ⟨e2, hlk, hemp⟩
    · refine Or.inl ?_
      exact foldlM_option_preserve
        (P := fun m => ∀ sh e2, mapLookup m sh = some e2 → e2.history = [] →
          ∃ e, mapLookup s.scripthashes sh = some e ∧ e.history = [])
        (Q := fun _ => True)
        (fun b a b2 _ hPb hstep sh e2 hlk hemp =>
          hPb sh _ ((purgeHistStep_no_new_empty hstep sh e2 hlk hemp).choose_spec.1)
            (purgeHistStep_no_new_empty hstep sh e2 hlk hemp).choose_spec.2)
        (fun _ _ => trivial)
        (fun sh e2 hlk hemp => ⟨e2, hlk, hemp⟩) hfold sh e2 hlk hemp

/-- Witness for C6 at a concrete instance: in the state reached by
`index_scripthash(1, 2, 3)` from empty, the script entry for fingerprint 1
has an empty history set, and the theorem attributes it to that
`index_scripthash` operation. -/
theorem C6_emptied_entries_deleted_witness :
    (∃ e, mapLookup MemoryStore.empty.scripthashes 1 = some e ∧
      e.history = []) ∨
    ∃ o a, Op.index_scripthash 1 2 3 = Op.index_scripthash 1 o a :=
  C6_emptied_entries_deleted MemoryStore.empty (Op.index_scripthash 1 2 3)
    emptyHistoryStore (by decide) 1
    { address := 3, origin := 2, history := [] } (by decide) (by decide)

/-! ### Status and option helpers -/

theorem TxStatus.is_viable_iff (s : TxStatus) :
    s.is_viable = true ↔ s ≠ TxStatus.conflicted := by
  cases s <;> simp [TxStatus.is_viable]

theorem TxStatus.is_unconfirmed_iff (s : TxStatus) :
    s.is_unconfirmed = true ↔ s = TxStatus.unconfirmed := by
  cases s <;> simp [TxStatus.is_unconfirmed]

theorem OptSat_none {α : Type} (P : α → Prop) : ¬ OptSat (none : Option α) P := by
  rintro ⟨a, h, -⟩
  cases h

theorem OptSat_some {α : Type} (a : α) (P : α → Prop) :
    OptSat (some a) P ↔ P a := by
  constructor
  · rintro ⟨b, hb, hp⟩
    cases hb
    exact hp
  · exact fun hp => ⟨a, rfl, hp⟩

theorem updateHistStep_eq {o n : HistoryEntry}
    {m m2 : List (Nat × ScriptEntry)} {a : Nat}
    (h : updateHistStep o n m a = some m2) :
    ∃ e, mapLookup m a = some e ∧
      m2 = mapModify m a (fun e2 => { e2 with history :=
        (btreeInsertB HistoryEntry.cmp n
          (btreeRemoveB HistoryEntry.cmp o e.history).2).2 }) := by
  simp only [updateHistStep, Option.bind_eq_bind, Option.bind_eq_some] at h
  obtain ⟨e, he, h⟩ := h
  by_cases hr : (btreeRemoveB HistoryEntry.cmp o e.history).1 = true
  · rw [if_pos hr] at h
    by_cases hi : (btreeInsertB HistoryEntry.cmp n
        (btreeRemoveB HistoryEntry.cmp o e.history).2).1 = true
    · rw [if_pos hi] at h
      cases h
      exact ⟨e, he, rfl⟩
    · rw [if_neg hi] at h
      cases h
  · rw [if_neg hr] at h
    cases h

theorem purgeHistStep_eq {o : HistoryEntry}
    {m m2 : List (Nat × ScriptEntry)} {a : Nat}
    (h : purgeHistStep o m a = some m2) :
    ∃ e, mapLookup m a = some e ∧
      (m2 = mapErase m a ∨
        m2 = mapModify m a (fun e2 => { e2 with history :=
          (btreeRemoveB HistoryEntry.cmp o e.history).2 })) := by
  simp only [purgeHistStep, Option.bind_eq_bind, Option.bind_eq_some] at h
  obtain ⟨e, he, h⟩ := h
  by_cases hr : (btreeRemoveB HistoryEntry.cmp o e.history).1 = true
  · rw [if_pos hr] at h
    cases h
    by_cases hemp : (btreeRemoveB HistoryEntry.cmp o e.history).2.isEmpty
    · rw [if_pos hemp]
      exact ⟨e, he, Or.inl rfl⟩
    · rw [if_neg hemp]
      exact ⟨e, he, Or.inr rfl⟩
  · rw [if_neg hr] at h
    cases h

theorem updateHistStep_hist_preserve {o n : HistoryEntry}
    (hn : n.status ≠ TxStatus.conflicted)
    {b b2 : List (Nat × ScriptEntry)} {a : Nat}
    (h : updateHistStep o n b a = some b2)
    (hb : ∀ p ∈ b, ∀ hh ∈ p.2.history, hh.status ≠ TxStatus.conflicted) :
    ∀ p ∈ b2, ∀ hh ∈ p.2.history, hh.status ≠ TxStatus.conflicted := by
  obtain ⟨e, he, rfl⟩ := updateHistStep_eq h
  intro p hp hh hhmem
  rcases mem_mapModify hp with hp | ⟨v, hv, rfl⟩
  · exact hb p hp hh hhmem
  · rcases mem_btreeInsertB hhmem with rfl | hhmem
    · exact hn
    · exact hb (a, e) (mapLookup_mem he) hh (mem_btreeRemoveB hhmem)

theorem purgeHistStep_hist_preserve {o : HistoryEntry}
    {b b2 : List (Nat × ScriptEntry)} {a : Nat}
    (h : purgeHistStep o b a = some b2)
    (hb : ∀ p ∈ b, ∀ hh ∈ p.2.history, hh.status ≠ TxStatus.conflicted) :
    ∀ p ∈ b2, ∀ hh ∈ p.2.history, hh.status ≠ TxStatus.conflicted := by
  obtain ⟨e, he, hcase⟩ := purgeHistStep_eq h
  rcases hcase with rfl | rfl
  · intro p hp hh hhmem
    exact hb p (mem_mapErase hp) hh hhmem
  · intro p hp hh hhmem
    rcases mem_mapModify hp with hp | ⟨v, hv, rfl⟩
    · exact hb p hp hh hhmem
    · exact hb (a, e) (mapLookup_mem he) hh (mem_btreeRemoveB hhmem)

theorem indexHistStep_hist_preserve {txh : HistoryEntry}
    (hn : txh.status ≠ TxStatus.conflicted) {st st2 : MemoryStore} {a : Nat}
    (h : indexHistStep txh st a = some st2)
    (hb : ∀ p ∈ st.scripthashes, ∀ hh ∈ p.2.history,
      hh.status ≠ TxStatus.conflicted) :
    ∀ p ∈ st2.scripthashes, ∀ hh ∈ p.2.history,
      hh.status ≠ TxStatus.conflicted := by
  obtain ⟨e, he, -, -, -, heq, -, -⟩ := indexHistStep_spec h
  rw [heq]
  intro p hp hh hhmem
  rcases mem_mapModify hp with hp | ⟨v, hv, rfl⟩
  · exact hb p hp hh hhmem
  · rcases mem_btreeInsertB hhmem with rfl | hhmem
    · exact hn
    · exact hb (a, e) (mapLookup_mem he) hh hhmem

theorem applyOp_no_conflicted {s s2 : MemoryStore} {op : Op}
    (hv : Op.viable op) (h : applyOp s op = some s2) (hs : NoConflicted s) :
    NoConflicted s2 := by
  obtain ⟨hstx, hssh⟩ := hs
  cases op with
  | index_scripthash sh0 o a =>
    simp only [applyOp, Option.map_eq_some'] at h
    obtain ⟨p, hp, hps⟩ := h
    subst hps
    rcases hl : mapLookup s.scripthashes sh0 with - | curr
    · simp only [MemoryStore.index_scripthash, hl] at hp
      cases hp
      refine ⟨hstx, ?_⟩
      intro p hpmem hh hhmem
      rcases mem_mapInsert hpmem with hpm | rfl
      · exact hssh p hpm hh hhmem
      · cases hhmem
    · simp only [MemoryStore.index_scripthash, hl] at hp
      by_cases horig : curr.origin = o
      · rw [if_pos horig] at hp
        cases hp
        exact ⟨hstx, hssh⟩
      · rw [if_neg horig] at hp
        cases hp
  | upsert_tx txid status =>
    have hvs : status ≠ TxStatus.conflicted := (TxStatus.is_viable_iff status).1 hv
    simp only [applyOp, Option.map_eq_some'] at h
    obtain ⟨p, hp, hps⟩ := h
    subst hps
    rcases upsert_tx_spec hp with ⟨e, -, -, rfl⟩ | ⟨e, s3, hte, -, hupd, rfl⟩ |
      ⟨-, -, -, rfl⟩ | ⟨-, -, rfl⟩
    · exact ⟨hstx, hssh⟩
    · obtain ⟨te, m2, -, hfold, htx, hscr, -, -⟩ := update_tx_status_spec hupd
      constructor
      · rw [htx]
        intro p hp2
        rcases mem_mapModify hp2 with hp2 | ⟨v, hv2, rfl⟩
        · exact hstx p hp2
        · exact hvs
      · rw [hscr]
        exact foldlM_option_preserve
          (P := fun m => ∀ p ∈ m, ∀ hh ∈ p.2.history,
            hh.status ≠ TxStatus.conflicted)
          (Q := fun _ => True)
          (fun b a b2 _ hPb hstep => updateHistStep_hist_preserve hvs hstep hPb)
          (fun _ _ => trivial) hssh hfold
    · constructor
      · intro p hp2
        rcases mem_mapInsert hp2 with hp2 | rfl
        · exact hstx p hp2
        · exact hvs
      · exact hssh
    · constructor
      · intro p hp2
        rcases mem_mapInsert hp2 with hp2 | rfl
        · exact hstx p hp2
        · exact hvs
      · exact hssh
  | index_tx_output_funding txid vout fi =>
    simp only [applyOp, Option.map_eq_some'] at h
    obtain ⟨p, hp, hps⟩ := h
    subst hps
    obtain ⟨te, hte, hcase⟩ := index_tx_output_funding_spec hp
    have hts : te.status ≠ TxStatus.conflicted := hstx (txid, te) (mapLookup_mem hte)
    rcases hcase with ⟨fi0, -, rfl⟩ | ⟨-, r, hr, rfl⟩
    · exact ⟨hstx, hssh⟩
    · obtain ⟨e, he, h1, -, -, h4, -, -⟩ := index_history_entry_spec hr
      constructor
      · rw [h1]
        intro p hp2
        rcases mem_mapModify hp2 with hp2 | ⟨v, hv2, rfl⟩
        · exact hstx p hp2
        · exact hstx (txid, v) hv2
      · rw [h4]
        intro p hp2 hh hhmem
        rcases mem_mapModify hp2 with hp2 | ⟨v, hv2, rfl⟩
        · exact hssh p hp2 hh hhmem
        · rcases mem_btreeInsertB hhmem with rfl | hhmem
          · exact hts
          · exact hssh (fi.scripthash, e) (mapLookup_mem he) hh hhmem
  | index_tx_inputs_spending txid spending ow =>
    simp only [applyOp] at h
    obtain ⟨te, hte, -, hfold⟩ := index_tx_inputs_spending_spec h
    have hts : te.status ≠ TxStatus.conflicted := hstx (txid, te) (mapLookup_mem hte)
    have base_tx : ∀ p ∈ mapModify s.transactions txid
        (fun _ => { te with spending := spending }), p.2.status ≠ TxStatus.conflicted := by
      intro p hp2
      rcases mem_mapModify hp2 with hp2 | ⟨v, hv2, rfl⟩
      · exact hstx p hp2
      · exact hts
    have hres := foldlM_option_preserve
      (P := fun st => (∀ p ∈ st.transactions, p.2.status ≠ TxStatus.conflicted) ∧
        (∀ p ∈ st.scripthashes, ∀ hh ∈ p.2.history,
          hh.status ≠ TxStatus.conflicted))
      (Q := fun _ => True)
      (fun b a b2 _ hPb hstep =>
        ⟨by
          obtain ⟨-, -, htx2, -, -, -, -, -⟩ := indexHistStep_spec hstep
          rw [htx2]
          exact hPb.1,
         indexHistStep_hist_preserve hts hstep hPb.2⟩)
      (fun _ _ => trivial) ⟨base_tx, hssh⟩ hfold
    exact ⟨hres.1, hres.2⟩
  | index_txo_spend prevout inp =>
    simp only [applyOp] at h
    cases h
    exact ⟨hstx, hssh⟩
  | purge_tx txid =>
    simp only [applyOp, Option.map_eq_some'] at h
    obtain ⟨p, hp, hps⟩ := h
    subst hps
    rcases purge_tx_spec hp with ⟨-, rfl⟩ | ⟨oe, m2, sp2, -, -, hfold, -, rfl⟩
    · exact ⟨hstx, hssh⟩
    · constructor
      · intro p hp2
        exact hstx p (mem_mapErase hp2)
      · exact foldlM_option_preserve
          (P := fun m => ∀ p ∈ m, ∀ hh ∈ p.2.history,
            hh.status ≠ TxStatus.conflicted)
          (Q := fun _ => True)
          (fun b a b2 _ hPb hstep => purgeHistStep_hist_preserve hstep hPb)
          (fun _ _ => trivial) hssh hfold

/-! ### Claim C1 -/

/-- C1: when `upsert_tx` is never invoked with a `Conflicted` status (the
documented calling discipline; non-viable records trigger `purge_tx`
instead), every store reachable from empty by successful operations holds
no `Conflicted` status anywhere: not in any stored `TxEntry` and not in any
`HistoryEntry` of any script entry's history set. -/
theorem C1_no_conflicted_stored (ops : List Op) (s : MemoryStore)
    (hviable : ∀ op ∈ ops, Op.viable op) (h : runOps ops = some s) :
    NoConflicted s :=
  foldlM_option_preserve
    (P := NoConflicted) (Q := Op.viable)
    (fun b op b2 hq hP hstep => applyOp_no_conflicted hq hstep hP)
    hviable ⟨by simp [MemoryStore.empty], by simp [MemoryStore.empty]⟩ h

/-- Witness for C1: the operation sequence building `wStore` (tracking a
scripthash, upserting an unconfirmed transaction, indexing its funding
output) is viable, and the resulting store holds no conflicted status. -/
theorem C1_no_conflicted_stored_witness : NoConflicted wStore :=
  C1_no_conflicted_stored
    [Op.index_scripthash 1 2 3, Op.upsert_tx 7 TxStatus.unconfirmed,
      Op.index_tx_output_funding 7 0 { scripthash := 1, value := 5000 }]
    wStore (by decide) (by decide)

theorem applyOp_mempool_sync {s s2 : MemoryStore} {op : Op}
    (h : applyOp s op = some s2)
    (hs : ∀ t, (mapLookup s.mempool t).isSome = true ↔
      OptSat (mapLookup s.transactions t)
        (fun te => te.status = TxStatus.unconfirmed)) :
    ∀ t, (mapLookup s2.mempool t).isSome = true ↔
      OptSat (mapLookup s2.transactions t)
        (fun te => te.status = TxStatus.unconfirmed) := by
  cases op with
  | index_scripthash sh0 o a =>
    simp only [applyOp, Option.map_eq_some'] at h
    obtain ⟨p, hp, hps⟩ := h
    subst hps
    rcases hl : mapLookup s.scripthashes sh0 with - | curr
    · simp only [MemoryStore.index_scripthash, hl] at hp
      cases hp
      exact hs
    · simp only [MemoryStore.index_scripthash, hl] at hp
      by_cases horig : curr.origin = o
      · rw [if_pos horig] at hp
        cases hp
        exact hs
      · rw [if_neg horig] at hp
        cases hp
  | upsert_tx txid status =>
    simp only [applyOp, Option.map_eq_some'] at h
    obtain ⟨p, hp, hps⟩ := h
    subst hps
    rcases upsert_tx_spec hp with ⟨e, -, -, rfl⟩ | ⟨e, s3, hte, hne, hupd, rfl⟩ |
      ⟨hlnone, hst, hmemnone, rfl⟩ | ⟨hlnone, hst, rfl⟩
    · exact hs
    · obtain ⟨te, m2, -, -, htx, -, -, hmp⟩ := update_tx_status_spec hupd
      intro t
      by_cases ht : t = txid
      · subst ht
        have htxl : mapLookup s3.transactions t =
            some { e with status := status } := by
          rw [htx]
          show mapLookup (mapModify s.transactions t _) t = _
          rw [mapLookup_modify_self, hte]
          rfl
        rw [htxl, OptSat_some]
        rcases hmp with ⟨hold, -, hmpe⟩ | ⟨-, hnew, hmpn, hmpe⟩ | ⟨hold, hnew, hmpe⟩
        · rw [hmpe]
          show (mapLookup (mapErase s.mempool t) t).isSome = true ↔ _
          rw [mapLookup_erase_self]
          have : status ≠ TxStatus.unconfirmed := by
            rw [← hold]
            exact fun hh => hne hh.symm
          simp [this]
        · rw [hmpe]
          show (mapLookup (mapInsert s.mempool t none) t).isSome = true ↔ _
          rw [mapLookup_insert_self _ hmpn]
          simp [hnew]
        · rw [hmpe]
          show (mapLookup s.mempool t).isSome = true ↔ _
          rw [hs t, hte, OptSat_some]
          constructor
          · intro hh
            exact absurd hh hold
          · intro hh
            exact absurd hh hnew
      · have htxl : mapLookup s3.transactions t = mapLookup s.transactions t := by
          rw [htx]
          exact mapLookup_modify_ne _ ht
        rw [htxl]
        rcases hmp with ⟨-, -, hmpe⟩ | ⟨-, -, -, hmpe⟩ | ⟨-, -, hmpe⟩
        · rw [hmpe]
          show (mapLookup (mapErase s.mempool txid) t).isSome = true ↔ _
          rw [mapLookup_erase_ne ht]
          exact hs t
        · rw [hmpe]
          show (mapLookup (mapInsert s.mempool txid none) t).isSome = true ↔ _
          rw [mapLookup_insert_ne _ ht]
          exact hs t
        · rw [hmpe]
          exact hs t
    · intro t
      by_cases ht : t = txid
      · subst ht
        show (mapLookup (mapInsert s.mempool t none) t).isSome = true ↔
          OptSat (mapLookup (mapInsert s.transactions t (TxEntry.new status)) t) _
        rw [mapLookup_insert_self _ hmemnone, mapLookup_insert_self _ hlnone,
          OptSat_some]
        simp [TxEntry.new, hst]
      · show (mapLookup (mapInsert s.mempool txid none) t).isSome = true ↔
          OptSat (mapLookup (mapInsert s.transactions txid (TxEntry.new status)) t) _
        rw [mapLookup_insert_ne _ ht, mapLookup_insert_ne _ ht]
        exact hs t
    · intro t
      by_cases ht : t = txid
      · subst ht
        show (mapLookup s.mempool t).isSome = true ↔
          OptSat (mapLookup (mapInsert s.transactions t (TxEntry.new status)) t) _
        rw [mapLookup_insert_self _ hlnone, OptSat_some, hs t, hlnone]
        simp only [TxEntry.new]
        constructor
        · intro hh
          exact absurd hh (OptSat_none _)
        · intro hh
          exact absurd hh hst
      · show (mapLookup s.mempool t).isSome = true ↔
          OptSat (mapLookup (mapInsert s.transactions txid (TxEntry.new status)) t) _
        rw [mapLookup_insert_ne _ ht]
        exact hs t
  | index_tx_output_funding txid vout fi =>
    simp only [applyOp, Option.map_eq_some'] at h
    obtain ⟨p, hp, hps⟩ := h
    subst hps
    obtain ⟨te, hte, hcase⟩ := index_tx_output_funding_spec hp
    rcases hcase with ⟨fi0, -, rfl⟩ | ⟨-, r, hr, rfl⟩
    · exact hs
    · obtain ⟨e, he, h1, h2, -, -, -, -⟩ := index_history_entry_spec hr
      intro t
      rw [h2]
      show (mapLookup s.mempool t).isSome = true ↔ _
      by_cases ht : t = txid
      · subst ht
        have : mapLookup r.2.transactions t = some { te with
            funding := mapInsert te.funding vout fi } := by
          rw [h1]
          show mapLookup (mapModify s.transactions t _) t = _
          rw [mapLookup_modify_self, hte]
          rfl
        rw [this, OptSat_some, hs t, hte, OptSat_some]
      · have : mapLookup r.2.transactions t = mapLookup s.transactions t := by
          rw [h1]
          exact mapLookup_modify_ne _ ht
        rw [this]
        exact hs t
  | index_tx_inputs_spending txid spending ow =>
    simp only [applyOp] at h
    obtain ⟨te, hte, -, hfold⟩ := index_tx_inputs_spending_spec h
    have hcomp := foldlM_option_preserve
      (P := fun st => st.transactions =
          mapModify s.transactions txid
            (fun _ => { te with spending := spending }) ∧
        st.mempool = s.mempool)
      (Q := fun _ => True)
      (fun b a b2 _ hPb hstep => by
        obtain ⟨-, -, htx2, hmp2, -, -, -, -⟩ := indexHistStep_spec hstep
        exact ⟨htx2.trans hPb.1, hmp2.trans hPb.2⟩)
      (fun _ _ => trivial) ⟨rfl, rfl⟩ hfold
    intro t
    rw [hcomp.1, hcomp.2]
    by_cases ht : t = txid
    · subst ht
      rw [mapLookup_modify_self, hte, Option.map_some', OptSat_some, hs t, hte,
        OptSat_some]
    · rw [mapLookup_modify_ne _ ht]
      exact hs t
  | index_txo_spend prevout inp =>
    simp only [applyOp] at h
    cases h
    exact hs
  | purge_tx txid =>
    simp only [applyOp, Option.map_eq_some'] at h
    obtain ⟨p, hp, hps⟩ := h
    subst hps
    rcases purge_tx_spec hp with ⟨-, rfl⟩ | ⟨oe, m2, sp2, hte, -, -, -, rfl⟩
    · exact hs
    · intro t
      by_cases ht : t = txid
      · subst ht
        show (mapLookup (if oe.status.is_unconfirmed then
            mapErase s.mempool t else s.mempool) t).isSome = true ↔
          OptSat (mapLookup (mapErase s.transactions t) t) _
        rw [mapLookup_erase_self]
        by_cases hunc : oe.status.is_unconfirmed
        · rw [if_pos hunc, mapLookup_erase_self]
          simp [OptSat_none]
        · rw [if_neg hunc, hs t, hte, OptSat_some]
          constructor
          · intro hh
            exact absurd ((TxStatus.is_unconfirmed_iff oe.status).2 hh) hunc
          · intro hh
            exact absurd hh (OptSat_none _)
      · show (mapLookup (if oe.status.is_unconfirmed then
            mapErase s.mempool txid else s.mempool) t).isSome = true ↔
          OptSat (mapLookup (mapErase s.transactions txid) t) _
        rw [mapLookup_erase_ne ht]
        by_cases hunc : oe.status.is_unconfirmed
        · rw [if_pos hunc, mapLookup_erase_ne ht]
          exact hs t
        · rw [if_neg hunc]
          exact hs t

/-! ### Claim C3 -/

/-- C3: in every store reachable from empty by successful operations
(hence after every upsert_tx, index_tx_output_funding,
index_tx_inputs_spending and purge_tx), a txid is a key of the mempool map
exactly when a `TxEntry` for it is present with status `Unconfirmed`. -/
theorem C3_mempool_iff_unconfirmed (ops : List Op) (s : MemoryStore)
    (h : runOps ops = some s) :
    ∀ t, (mapLookup s.mempool t).isSome = true ↔
      OptSat (mapLookup s.transactions t)
        (fun te => te.status = TxStatus.unconfirmed) :=
  foldlM_option_preserve
    (P := fun st => ∀ t, (mapLookup st.mempool t).isSome = true ↔
      OptSat (mapLookup st.transactions t)
        (fun te => te.status = TxStatus.unconfirmed))
    (Q := fun _ => True)
    (fun b op b2 _ hP hstep => applyOp_mempool_sync hstep hP)
    (fun _ _ => trivial)
    (fun t => by simp [MemoryStore.empty, mapLookup, OptSat_none]) h

/-- Witness for C3 at the store built from three operations, queried at
txid 7 (in the mempool, unconfirmed) . -/
theorem C3_mempool_iff_unconfirmed_witness :
    (mapLookup wStore.mempool 7).isSome = true ↔
      OptSat (mapLookup wStore.transactions 7)
        (fun te => te.status = TxStatus.unconfirmed) :=
  C3_mempool_iff_unconfirmed
    [Op.index_scripthash 1 2 3, Op.upsert_tx 7 TxStatus.unconfirmed,
      Op.index_tx_output_funding 7 0 { scripthash := 1, value := 5000 }]
    wStore (by decide) 7

theorem btreeRemoveB_true_mem {x : HistoryEntry} {l : List HistoryEntry}
    (h : (btreeRemoveB HistoryEntry.cmp x l).1 = true) : x ∈ l := by
  induction l with
  | nil => simpa [btreeRemoveB] using h
  | cons y ys ih =>
    simp only [btreeRemoveB] at h
    rcases hc : HistoryEntry.cmp x y with - | - | - <;> rw [hc] at h
    · cases h
    · rw [(hist_cmp_eq_iff x y).1 hc]
      simp
    · simp only at h
      exact List.mem_cons_of_mem _ (ih h)

/-! ### Claim C4 -/

/-- C4: a status transition old→new of a transaction whose funding/spending
maps reference the scripthash set S (= `TxEntry::scripthashes`) replaces,
in every scripthash of S, the history entry (txid, old) by (txid, new):
each such script entry held (txid, old) before, afterwards it no longer
holds (txid, old) and holds (txid, new); and the script entry of every
scripthash outside S is completely unchanged. -/
theorem C4_status_transition_frame (s s2 : MemoryStore) (txid : Nat)
    (old_status new_status : TxStatus) (te : TxEntry)
    (hsorted : HistoriesSorted s)
    (hte : mapLookup s.transactions txid = some te)
    (hne : old_status ≠ new_status)
    (h : s.update_tx_status txid old_status new_status = some s2) :
    (∀ sh ∈ te.scripthashes, ∃ e e2,
      mapLookup s.scripthashes sh = some e ∧
      mapLookup s2.scripthashes sh = some e2 ∧
      HistoryEntry.new txid old_status ∈ e.history ∧
      HistoryEntry.new txid old_status ∉ e2.history ∧
      HistoryEntry.new txid new_status ∈ e2.history) ∧
    (∀ sh, sh ∉ te.scripthashes →
      mapLookup s2.scripthashes sh = mapLookup s.scripthashes sh) := by
  obtain ⟨te2, m2, hte2, hfold, -, hscr, -, -⟩ := update_tx_status_spec h
  rw [hte] at hte2
  have hteq := Option.some_inj.1 hte2
  subst hteq
  have hnd : te.scripthashes.Nodup := List.nodup_dedup _
  obtain ⟨hframe, hmem⟩ := updateHist_fold_lookup hnd hfold
  constructor
  · intro sh hsh
    obtain ⟨e, he, hrem, -, hlk2⟩ := hmem sh hsh
    have hes : HSorted e.history := hsorted (sh, e) (mapLookup_mem he)
    refine ⟨e, { e with history :=
        (btreeInsertB HistoryEntry.cmp (HistoryEntry.new txid new_status)
          (btreeRemoveB HistoryEntry.cmp
            (HistoryEntry.new txid old_status) e.history).2).2 },
      he, by rw [hscr]; exact hlk2, btreeRemoveB_true_mem hrem, ?_, ?_⟩
    · intro hmem2
      rcases mem_btreeInsertB hmem2 with heq | hmem2
      · exact hne (congrArg HistoryEntry.status heq)
      · exact not_mem_btreeRemoveB hes hmem2
    · exact self_mem_btreeInsertB _ _
  · intro sh hsh
    rw [hscr]
    exact hframe sh hsh

/-- Witness for C4 on the populated store `wStore`: transitioning
transaction 7 from Unconfirmed to Confirmed(100). -/
theorem C4_status_transition_frame_witness :
    (∀ sh ∈ wTxEntry.scripthashes, ∃ e e2,
      mapLookup wStore.scripthashes sh = some e ∧
      mapLookup wStoreConfirmed.scripthashes sh = some e2 ∧
      HistoryEntry.new 7 TxStatus.unconfirmed ∈ e.history ∧
      HistoryEntry.new 7 TxStatus.unconfirmed ∉ e2.history ∧
      HistoryEntry.new 7 (TxStatus.confirmed 100) ∈ e2.history) ∧
    (∀ sh, sh ∉ wTxEntry.scripthashes →
      mapLookup wStoreConfirmed.scripthashes sh =
        mapLookup wStore.scripthashes sh) :=
  C4_status_transition_frame wStore wStoreConfirmed 7 TxStatus.unconfirmed
    (TxStatus.confirmed 100) wTxEntry (by decide) (by decide) (by decide)
    (by decide)

/-! ### Claim C5 -/

/-- C5: `purge_tx` returns true exactly when a `TxEntry` existed (so an
immediately repeated call returns false and changes nothing); after a
successful purge of a consistent store, the `TxEntry` is gone, the txid is
not in the mempool map, no script entry's history set holds any entry for
that txid, and every script entry the purge emptied is deleted (absent
from `get_history`), the others retaining non-empty history. -/
theorem C5_purge_effect (s : MemoryStore) (txid : Nat) (b : Bool)
    (s2 : MemoryStore) (hinv : StoreInv s)
    (h : s.purge_tx txid = some (b, s2)) :
    (b = true ↔ (mapLookup s.transactions txid).isSome = true) ∧
    (b = false → s2 = s) ∧
    (b = true →
      s2.purge_tx txid = some (false, s2) ∧
      s2.get_tx_entry txid = none ∧
      mapLookup s2.mempool txid = none ∧
      (∀ sh e2, mapLookup s2.scripthashes sh = some e2 →
        ∀ hh ∈ e2.history, hh.txid ≠ txid) ∧
      (∀ oe, mapLookup s.transactions txid = some oe →
        ∀ sh ∈ oe.scripthashes,
          s2.get_history sh = none ∨
          ∃ hist, s2.get_history sh = some hist ∧ hist ≠ [])) := by
  obtain ⟨hsorted, hcons, hmpl⟩ := hinv
  rcases purge_tx_spec h with ⟨hnone, hp⟩ | ⟨oe, m2, sp2, hte, -, hfold, -, hp⟩
  · injection hp with hb hs2
    subst hb
    refine ⟨by simp [hnone], fun _ => hs2, fun hcontra => by cases hcontra⟩
  · injection hp with hb hs2
    subst hb
    subst hs2
    have hnd : oe.scripthashes.Nodup := List.nodup_dedup _
    obtain ⟨hframe, hmem⟩ := purgeHist_fold_lookup hnd hfold
    have htxe : mapLookup (mapErase s.transactions txid) txid = none :=
      mapLookup_erase_self _ _
    have hmpe : mapLookup (if oe.status.is_unconfirmed then
        mapErase s.mempool txid else s.mempool) txid = none := by
      by_cases hunc : oe.status.is_unconfirmed
      · rw [if_pos hunc]
        exact mapLookup_erase_self _ _
      · rw [if_neg hunc]
        rcases hl : mapLookup s.mempool txid with - | v
        · rfl
        · obtain ⟨te2, hte2, hst2⟩ := hmpl.1 (txid, v) (mapLookup_mem hl)
          rw [hte] at hte2
          have := Option.some_inj.1 hte2
          subst this
          exact absurd ((TxStatus.is_unconfirmed_iff oe.status).2 hst2) hunc
    refine And.intro (by simp [hte])
      (And.intro (fun hcontra => by cases hcontra) (fun _ => ?_))
    refine ⟨?_, htxe, hmpe, ?_, ?_⟩
    · simp only [MemoryStore.purge_tx, htxe]
    · intro sh e2 hlk2 hh hhmem hhtxid
      have hlkm2 : mapLookup m2 sh = some e2 := hlk2
      by_cases hsh : sh ∈ oe.scripthashes
      · obtain ⟨e, he, -, hcase⟩ := hmem sh hsh
        rcases hcase with ⟨-, hnone2⟩ | ⟨-, hsome2⟩
        · rw [hnone2] at hlkm2
          cases hlkm2
        · rw [hsome2] at hlkm2
          have he2 := Option.some_inj.1 hlkm2
          subst he2
          have hhmem2 : hh ∈ (btreeRemoveB HistoryEntry.cmp
              (HistoryEntry.new txid oe.status) e.history).2 := hhmem
          have hhe : hh ∈ e.history := mem_btreeRemoveB hhmem2
          obtain ⟨te2, hte2, hst2, -⟩ :=
            hcons (sh, e) (mapLookup_mem he) hh hhe
          rw [hhtxid, hte] at hte2
          have := Option.some_inj.1 hte2
          subst this
          have hheq : hh = HistoryEntry.new txid oe.status := by
            cases hh with
            | mk t st =>
              simp only [HistoryEntry.new, HistoryEntry.mk.injEq]
              simp only at hhtxid hst2
              exact ⟨hhtxid, hst2⟩
          rw [hheq] at hhmem2
          exact not_mem_btreeRemoveB
            (hsorted (sh, e) (mapLookup_mem he)) hhmem2
      · have hlk2s : mapLookup s.scripthashes sh = some e2 := by
          rw [hframe sh hsh] at hlkm2
          exact hlkm2
        obtain ⟨te2, hte2, -, hshmem⟩ :=
          hcons (sh, e2) (mapLookup_mem hlk2s) hh hhmem
        rw [hhtxid, hte] at hte2
        have := Option.some_inj.1 hte2
        subst this
        exact hsh hshmem
    · intro oe2 hoe2 sh hsh
      rw [hte] at hoe2
      have := Option.some_inj.1 hoe2
      subst this
      obtain ⟨e, he, -, hcase⟩ := hmem sh hsh
      rcases hcase with ⟨-, hnone2⟩ | ⟨hne2, hsome2⟩
      · left
        show (mapLookup m2 sh).map _ = none
        rw [hnone2]
        rfl
      · right
        refine ⟨(btreeRemoveB HistoryEntry.cmp
            (HistoryEntry.new txid oe.status) e.history).2, ?_, hne2⟩
        show (mapLookup m2 sh).map _ = _
        rw [hsome2]
        rfl

/-- Witness for C5: purging transaction 7 from the consistent populated
store `wStore` empties and deletes everything. -/
theorem C5_purge_effect_witness :
    (true = true ↔ (mapLookup wStore.transactions 7).isSome = true) ∧
    (true = false → MemoryStore.empty = wStore) ∧
    (true = true →
      MemoryStore.empty.purge_tx 7 = some (false, MemoryStore.empty) ∧
      MemoryStore.empty.get_tx_entry 7 = none ∧
      mapLookup MemoryStore.empty.mempool 7 = none ∧
      (∀ sh e2, mapLookup MemoryStore.empty.scripthashes sh = some e2 →
        ∀ hh ∈ e2.history, hh.txid ≠ 7) ∧
      (∀ oe, mapLookup wStore.transactions 7 = some oe →
        ∀ sh ∈ oe.scripthashes,
          MemoryStore.empty.get_history sh = none ∨
          ∃ hist, MemoryStore.empty.get_history sh = some hist ∧ hist ≠ [])) :=
  C5_purge_effect wStore 7 true MemoryStore.empty (by decide) (by decide)
